import Mathlib

/-!
Shallow embedding, in Lean 4, of the core matching engine of the
person-matcher repository (files `data_matching/utils.py`,
`data_matching/matching_data.py`, `data_matching/matching_base.py`),
together with theorems settling the frozen specification claims.

Conventions used throughout:
* Python lists become Lean `List`s; the numpy pointer array of the
  union-find becomes a `List Int`.
* Record identifiers are natural numbers.
* Floating-point scores are embedded as rationals; the claims under
  study are purely order-theoretic, so this is faithful.
* Fallible code (exceptions) is embedded with `Except` or with an
  explicit `Option` error component next to the mutated state.
-/

namespace PersonMatcher

/-! ## `split_list` (data_matching/utils.py, lines 16-22)

Python source:
`n = len(lst)`
`return [lst[i * (n // nparts) + min(i, n % nparts):(i+1) * (n // nparts) + min(i+1, n % nparts)] for i in range(nparts)]`

A Python slice `lst[a:b]` is `(lst.drop a).take (b - a)`.
-/

def split_list {α : Type} (lst : List α) (nparts : Nat) : List (List α) :=
  let n := lst.length
  (List.range nparts).map (fun i =>
    (lst.drop (i * (n / nparts) + min i (n % nparts))).take
      ((i + 1) * (n / nparts) + min (i + 1) (n % nparts)
        - (i * (n / nparts) + min i (n % nparts))))

/-- The slice boundary used by `split_list`: part `i` spans positions
`splitBound n k i` to `splitBound n k (i+1)`. -/
def splitBound (n k i : Nat) : Nat := i * (n / k) + min i (n % k)

lemma splitBound_zero (n k : Nat) : splitBound n k 0 = 0 := by
  simp [splitBound]

lemma splitBound_succ_ge (n k i : Nat) :
    splitBound n k i ≤ splitBound n k (i + 1) := by
  unfold splitBound
  generalize n / k = q
  generalize n % k = r
  have h2 : min i r ≤ min (i + 1) r := min_le_min (Nat.le_succ i) (le_refl r)
  have h3 : i * q + q = (i + 1) * q := (Nat.succ_mul i q).symm
  omega

lemma splitBound_le (n k i : Nat) (_hk : 1 ≤ k) (hik : i ≤ k) :
    splitBound n k i ≤ n := by
  unfold splitBound
  have hdm : k * (n / k) + n % k = n := Nat.div_add_mod n k
  have h1 : i * (n / k) ≤ k * (n / k) := Nat.mul_le_mul_right _ hik
  generalize hq : n / k = q at hdm h1 ⊢
  generalize hr : n % k = r at hdm ⊢
  have h4 : min i r ≤ r := Nat.min_le_right _ _
  omega

lemma splitBound_last (n k : Nat) (hk : 1 ≤ k) : splitBound n k k = n := by
  unfold splitBound
  have hr2 : n % k < k := Nat.mod_lt _ hk
  have hdm : k * (n / k) + n % k = n := Nat.div_add_mod n k
  generalize hq : n / k = q at hdm ⊢
  generalize hr : n % k = r at hdm hr2 ⊢
  have h4 : min k r = r := Nat.min_eq_right (by omega)
  have h5 : k * q = q * k := Nat.mul_comm _ _
  have h6 : q * k = k * q := Nat.mul_comm _ _
  omega

/-- Two adjacent slices glue into one slice. -/
lemma slice_glue {α : Type} (l : List α) (a b c : Nat) (hab : a ≤ b) (hbc : b ≤ c) :
    (l.drop a).take (b - a) ++ (l.drop b).take (c - b) = (l.drop a).take (c - a) := by
  have hdrop : l.drop b = (l.drop a).drop (b - a) := by
    rw [List.drop_drop]
    congr 1
    omega
  rw [hdrop]
  have htake := List.take_add (l.drop a) (b - a) (c - b)
  have h : b - a + (c - b) = c - a := by omega
  rw [h] at htake
  exact htake.symm

/-- Joining consecutive slices of a boundary function yields one big slice. -/
lemma join_slices {α : Type} (l : List α) (b : Nat → Nat)
    (hmono : ∀ m, b m ≤ b (m + 1)) :
    ∀ (cnt j : Nat),
      (((List.range' j cnt).map
        (fun i => (l.drop (b i)).take (b (i + 1) - b i))).flatten)
        = (l.drop (b j)).take (b (j + cnt) - b j) := by
  intro cnt
  induction cnt with
  | zero => intro j; simp
  | succ m ih =>
    intro j
    rw [List.range'_succ, List.map_cons, List.flatten_cons, ih (j + 1)]
    have hmono2 : ∀ (d p : Nat), b p ≤ b (p + d) := by
      intro d
      induction d with
      | zero => intro p; exact le_refl _
      | succ d2 ih2 =>
        intro p
        have ha : p + (d2 + 1) = (p + d2) + 1 := by omega
        rw [ha]
        exact le_trans (ih2 p) (hmono (p + d2))
    have h1 : b j ≤ b (j + 1) := hmono j
    have h2 : b (j + 1) ≤ b (j + (m + 1)) := by
      have := hmono2 m (j + 1)
      have ha : j + 1 + m = j + (m + 1) := by omega
      rwa [ha] at this
    have hglue := slice_glue l (b j) (b (j + 1)) (b (j + (m + 1))) h1 h2
    have h3 : j + 1 + m = j + (m + 1) := by omega
    rw [h3]
    exact hglue

lemma split_list_parts_eq {α : Type} (lst : List α) (k : Nat) :
    split_list lst k = (List.range k).map
      (fun i => (lst.drop (splitBound lst.length k i)).take
        (splitBound lst.length k (i + 1) - splitBound lst.length k i)) := by
  rfl

lemma split_list_length {α : Type} (lst : List α) (k : Nat) :
    (split_list lst k).length = k := by
  rw [split_list_parts_eq]
  simp

lemma split_list_flatten {α : Type} (lst : List α) (k : Nat) (hk : 1 ≤ k) :
    (split_list lst k).flatten = lst := by
  rw [split_list_parts_eq, List.range_eq_range']
  rw [join_slices lst (splitBound lst.length k) (splitBound_succ_ge lst.length k) k 0]
  rw [splitBound_zero, Nat.zero_add, splitBound_last _ _ hk]
  simp

/-- Each part has length `n / k` or `n / k + 1`. -/
lemma split_list_part_length {α : Type} (lst : List α) (k : Nat) (hk : 1 ≤ k)
    (p : List α) (hp : p ∈ split_list lst k) :
    lst.length / k ≤ p.length ∧ p.length ≤ lst.length / k + 1 := by
  rw [split_list_parts_eq] at hp
  rcases List.mem_map.mp hp with ⟨i, hi, hpi⟩
  have hik := List.mem_range.mp hi
  subst hpi
  have hb1 : splitBound lst.length k (i + 1) ≤ lst.length :=
    splitBound_le lst.length k (i + 1) hk (by omega)
  have hb0 : splitBound lst.length k i ≤ splitBound lst.length k (i + 1) :=
    splitBound_succ_ge lst.length k i
  have hlen : ((lst.drop (splitBound lst.length k i)).take
      (splitBound lst.length k (i + 1) - splitBound lst.length k i)).length
      = splitBound lst.length k (i + 1) - splitBound lst.length k i := by
    rw [List.length_take, List.length_drop]
    omega
  rw [hlen]
  unfold splitBound at hb0 hb1 ⊢
  generalize lst.length / k = q at hb0 hb1 ⊢
  generalize lst.length % k = r at hb0 hb1 ⊢
  have h2 : min i r ≤ min (i + 1) r := min_le_min (Nat.le_succ i) (le_refl r)
  have h3 : min (i + 1) r ≤ min i r + 1 := by
    have h4 := min_le_min (le_refl (i + 1)) (Nat.le_succ r)
    rw [Nat.succ_min_succ] at h4
    exact h4
  have h5 : i * q + q = (i + 1) * q := (Nat.succ_mul i q).symm
  omega

/-- C4: `split_list` returns exactly `k` contiguous sub-lists whose lengths
pairwise differ by at most 1 and whose concatenation in order is the input
list; for a list of 10 elements and `k = 3` the part sizes are `[4, 3, 3]`. -/
theorem split_list_spec {α : Type} (lst : List α) (k : Nat) (hk : 1 ≤ k) :
    (split_list lst k).length = k ∧
    (split_list lst k).flatten = lst ∧
    (∀ p ∈ split_list lst k, ∀ q ∈ split_list lst k,
      p.length ≤ q.length + 1) ∧
    (split_list (List.range 10) 3).map List.length = [4, 3, 3] := by
  refine ⟨split_list_length lst k, split_list_flatten lst k hk, ?_, by decide⟩
  intro p hp q hq
  have h1 := split_list_part_length lst k hk p hp
  have h2 := split_list_part_length lst k hk q hq
  omega

/-- Witness for C4 at the concrete input of spec scenario 4. -/
theorem split_list_spec_witness :
    1 ≤ 3 ∧
    ((split_list (List.range 10) 3).length = 3 ∧
    (split_list (List.range 10) 3).flatten = List.range 10 ∧
    (∀ p ∈ split_list (List.range 10) 3, ∀ q ∈ split_list (List.range 10) 3,
      p.length ≤ q.length + 1) ∧
    (split_list (List.range 10) 3).map List.length = [4, 3, 3]) :=
  ⟨by decide, split_list_spec (List.range 10) 3 (by decide)⟩

/-! ## Deduple.perform_linkage / PLinkage.perform_linkage
(data_matching/matching_data.py)

The two classes share the exact same control flow; they differ only in
which dataframes are handed to the external `recordlinkage` compare
object.  The comparison engine is therefore a parameter `compute`
(it may fail, modelling a Python exception).  The object state that
`perform_linkage` reads and mutates is:

* `candidate_pairs`   : the list of (left, right) identifier pairs;
* `comparison_matrix` : the `_comparison_matrix` attribute, which over
  the life of the method is either Python `None`, a dataframe (`mat`,
  a list of rows, each row = (pair index, score columns)), or the
  intermediate Python list of per-batch dataframes (`blocks`);
* `name_ranks` / `left_ranks` : `get_rank_names` copies the rank
  columns of `left_df` (here `left_ranks`, two rank columns per left
  id) into `name_ranks`; the final merge joins them onto the matrix on
  the left identifier, filling missing rows with the sentinel 7.
-/

/-- One row of the comparison matrix: the (left, right) pair index and
its per-rule score columns. -/
abbrev CRow : Type := (Nat × Nat) × List ℚ

abbrev CMatrix : Type := List CRow

/-- The `_comparison_matrix` attribute of a matching object. -/
inductive CompAttr : Type where
  | none : CompAttr
  | mat (rows : CMatrix) : CompAttr
  | blocks (bs : List CMatrix) : CompAttr
deriving DecidableEq

/-- The mutable state of a `Deduple` / `PLinkage` object read or written
by `perform_linkage`. -/
structure MatchState : Type where
  candidate_pairs : List (Nat × Nat)
  comparison_matrix : CompAttr
  name_ranks : Option (List (Nat × (ℚ × ℚ)))
  left_ranks : List (Nat × (ℚ × ℚ))
deriving DecidableEq

/-- Lines 68-70 (and 137-139): `if threshold is not None and threshold<=1.0:
self._comparison_matrix[self._comparison_matrix<threshold] = 0.0`. -/
def censorMatrix (threshold : Option ℚ) (m : CMatrix) : CMatrix :=
  match threshold with
  | Option.none => m
  | Option.some t =>
    if t ≤ 1 then
      m.map (fun row => (row.1, row.2.map (fun x => if x < t then 0 else x)))
    else m

/-- `self.get_rank_names()` (matching_base.py line 108): copies the rank
columns of the left dataframe into `name_ranks`. -/
def get_rank_names (st : MatchState) : MatchState :=
  { st with name_ranks := Option.some st.left_ranks }

/-- Line 73 (and 142): left-join of the rank columns onto the matrix on
the left identifier of each row, `fillna(7)` for rows with no rank. -/
def mergeRanks (ranks : List (Nat × (ℚ × ℚ))) (m : CMatrix) : CMatrix :=
  m.map (fun row => (row.1, row.2 ++
    (match ranks.lookup row.1.1 with
     | Option.some rv => [rv.1, rv.2]
     | Option.none => [7, 7])))

/-- The tail of `perform_linkage` shared by both branches that computed a
matrix `m`: threshold censoring, `get_rank_names`, rank merge. -/
def linkagePost (threshold : Option ℚ) (m : CMatrix) (st : MatchState) :
    MatchState :=
  let m1 := censorMatrix threshold m
  let st1 := get_rank_names { st with comparison_matrix := CompAttr.mat m1 }
  { st1 with comparison_matrix := CompAttr.mat (mergeRanks st1.left_ranks m1) }

/-- The batch loop of `perform_linkage` (lines 56-62 / 123-131): compare
each batch in order; an exception aborts the loop, leaving the list of
blocks accumulated so far in `_comparison_matrix`. -/
def computeBatches {ε : Type} (compute : List (Nat × Nat) → Except ε CMatrix) :
    List (List (Nat × Nat)) → List CMatrix → Except (ε × List CMatrix) (List CMatrix)
  | [], acc => Except.ok acc
  | b :: bs, acc =>
    match compute b with
    | Except.error e => Except.error (e, acc)
    | Except.ok m => computeBatches compute bs (acc ++ [m])

/-- `perform_linkage` (matching_data.py lines 35-75 and 102-144).  The
returned pair is the object state after the call together with the
exception that propagated, if any. -/
def perform_linkage {ε : Type} (compute : List (Nat × Nat) → Except ε CMatrix)
    (threshold : Option ℚ) (number_of_blocks : Nat) (st : MatchState) :
    MatchState × Option ε :=
  if st.candidate_pairs.length ≠ 0 ∧ number_of_blocks = 1 then
    match compute st.candidate_pairs with
    | Except.error e => (st, Option.some e)
    | Except.ok m => (linkagePost threshold m st, Option.none)
  else if st.candidate_pairs.length ≠ 0 ∧ 1 < number_of_blocks then
    match computeBatches compute (split_list st.candidate_pairs number_of_blocks) [] with
    | Except.error (e, acc) =>
      ({ st with comparison_matrix := CompAttr.blocks acc }, Option.some e)
    | Except.ok acc => (linkagePost threshold acc.flatten st, Option.none)
  else (st, Option.none)

/-! ### C9: empty candidate-pair set is a no-op success -/

/-- C9: with an empty candidate-pair set, `perform_linkage` returns
successfully, raises nothing, never invokes the comparison engine
(the result holds for every `compute`), and leaves the object state,
in particular its comparison matrix, unchanged. -/
theorem perform_linkage_empty_noop {ε : Type}
    (compute : List (Nat × Nat) → Except ε CMatrix)
    (threshold : Option ℚ) (number_of_blocks : Nat) (st : MatchState)
    (h : st.candidate_pairs = []) :
    perform_linkage compute threshold number_of_blocks st = (st, Option.none) := by
  unfold perform_linkage
  simp [h]

/-- Witness for C9 at a concrete empty-pair state. -/
theorem perform_linkage_empty_noop_witness :
    (MatchState.candidate_pairs
        ⟨[], CompAttr.none, Option.none, []⟩ = []) ∧
    perform_linkage (fun _ => (Except.ok [] : Except String CMatrix))
        (Option.some (1/2)) 4 ⟨[], CompAttr.none, Option.none, []⟩
      = (⟨[], CompAttr.none, Option.none, []⟩, Option.none) :=
  ⟨rfl, perform_linkage_empty_noop _ _ _ _ rfl⟩

/-! ### C10: thresholds above 1.0 disable censoring entirely -/

lemma censorMatrix_above_one (t : ℚ) (ht : 1 < t) (m : CMatrix) :
    censorMatrix (Option.some t) m = m := by
  have h0 : censorMatrix (Option.some t) m = if t ≤ 1 then
      m.map (fun row => (row.1, row.2.map (fun x => if x < t then 0 else x)))
    else m := rfl
  rw [h0, if_neg (not_le.mpr ht)]

lemma linkagePost_congr (th1 th2 : Option ℚ) (m : CMatrix) (st : MatchState)
    (h : censorMatrix th1 m = censorMatrix th2 m) :
    linkagePost th1 m st = linkagePost th2 m st := by
  unfold linkagePost
  rw [h]

/-- C10: a supplied threshold strictly above 1.0 performs no censoring:
the element-wise censor leaves the matrix untouched and the whole
`perform_linkage` call behaves exactly as with threshold `None`. -/
theorem perform_linkage_threshold_above_one {ε : Type}
    (compute : List (Nat × Nat) → Except ε CMatrix)
    (t : ℚ) (ht : 1 < t) (m : CMatrix)
    (number_of_blocks : Nat) (st : MatchState) :
    censorMatrix (Option.some t) m = m ∧
    perform_linkage compute (Option.some t) number_of_blocks st
      = perform_linkage compute Option.none number_of_blocks st := by
  refine ⟨censorMatrix_above_one t ht m, ?_⟩
  unfold perform_linkage
  have hc : ∀ m2 : CMatrix,
      linkagePost (Option.some t) m2 st = linkagePost Option.none m2 st := by
    intro m2
    exact linkagePost_congr _ _ m2 st (censorMatrix_above_one t ht m2)
  split
  · cases compute st.candidate_pairs with
    | error e => rfl
    | ok m2 => simp only [hc]
  · split
    · cases computeBatches compute (split_list st.candidate_pairs number_of_blocks) [] with
      | error p => rfl
      | ok acc => simp only [hc]
    · rfl

/-- Witness for C10 at a concrete threshold and state. -/
theorem perform_linkage_threshold_above_one_witness :
    (1 < (2 : ℚ)) ∧
    (censorMatrix (Option.some 2) [((0, 1), [1/2])] = [((0, 1), [1/2])] ∧
    perform_linkage (fun _ => (Except.ok [((0, 1), [1/2])] : Except String CMatrix))
        (Option.some 2) 1 ⟨[(0, 1)], CompAttr.none, Option.none, []⟩
      = perform_linkage (fun _ => (Except.ok [((0, 1), [1/2])] : Except String CMatrix))
        Option.none 1 ⟨[(0, 1)], CompAttr.none, Option.none, []⟩) :=
  ⟨by norm_num, perform_linkage_threshold_above_one _ 2 (by norm_num) _ 1 _⟩

/-! ### C3: threshold censoring (corrected: only for thresholds at most 1.0) -/

/-- Counterexample to C3 as stated: with the supplied non-None threshold
2.0, the entry 1/2 is strictly below the threshold yet `perform_linkage`
leaves it at its original value instead of replacing it with 0.0,
because the code guard `threshold<=1.0` is false. -/
theorem censor_claim_counterexample :
    ((1 : ℚ)/2 < 2) ∧ ((1 : ℚ)/2 ≠ 0) ∧
    censorMatrix (Option.some 2) [((0, 1), [1/2])] = [((0, 1), [1/2])] ∧
    (perform_linkage (fun _ => (Except.ok [((0, 1), [1/2])] : Except String CMatrix))
        (Option.some 2) 1 ⟨[(0, 1)], CompAttr.none, Option.none, []⟩).1.comparison_matrix
      = CompAttr.mat [((0, 1), [1/2, 7, 7])] := by
  refine ⟨by norm_num, by norm_num, ?_, ?_⟩
  · rw [censorMatrix_above_one 2 (by norm_num)]
  · rfl

/-- C3 (amended): when a non-None threshold `t ≤ 1.0` is supplied, the
censor applied by `perform_linkage` rewrites every score strictly below
`t` to exactly 0, leaves every score at or above `t` unchanged, keeps
every row (same pair index, same row count), maps nonnegative entries
to nonnegative entries, and threshold `None` changes nothing. -/
theorem censorMatrix_spec (t : ℚ) (ht : t ≤ 1) (m : CMatrix) :
    (censorMatrix (Option.some t) m).length = m.length ∧
    List.Forall₂ (fun row crow => crow.1 = row.1 ∧
        List.Forall₂ (fun x y =>
          (x < t → y = 0) ∧ (t ≤ x → y = x) ∧ (0 ≤ x → 0 ≤ y)) row.2 crow.2)
      m (censorMatrix (Option.some t) m) ∧
    censorMatrix Option.none m = m := by
  have hdef : censorMatrix (Option.some t) m
      = m.map (fun row => (row.1, row.2.map (fun x => if x < t then 0 else x))) := by
    have h0 : censorMatrix (Option.some t) m = if t ≤ 1 then
        m.map (fun row => (row.1, row.2.map (fun x => if x < t then 0 else x)))
      else m := rfl
    rw [h0, if_pos ht]
  refine ⟨by rw [hdef]; simp, ?_, rfl⟩
  rw [hdef]
  rw [List.forall₂_map_right_iff]
  rw [List.forall₂_same]
  intro row _
  refine ⟨rfl, ?_⟩
  rw [List.forall₂_map_right_iff]
  rw [List.forall₂_same]
  intro x _
  refine ⟨?_, ?_, ?_⟩
  · intro hx
    rw [if_pos hx]
  · intro hx
    rw [if_neg (by exact not_lt.mpr hx)]
  · intro hx
    by_cases hxt : x < t
    · rw [if_pos hxt]
    · rw [if_neg hxt]
      exact hx

/-- Witness for C3 (amended) at spec scenario 3: scores [0.9, 0.4, 0.2]
with threshold 0.5. -/
theorem censorMatrix_spec_witness :
    ((1 : ℚ)/2 ≤ 1) ∧
    ((censorMatrix (Option.some (1/2)) [((0, 1), [9/10, 2/5, 1/5])]).length
        = [((0, 1), ([9/10, 2/5, 1/5] : List ℚ))].length ∧
    List.Forall₂ (fun row crow => crow.1 = row.1 ∧
        List.Forall₂ (fun x y =>
          (x < 1/2 → y = 0) ∧ ((1:ℚ)/2 ≤ x → y = x) ∧ (0 ≤ x → 0 ≤ y)) row.2 crow.2)
      [((0, 1), [9/10, 2/5, 1/5])]
      (censorMatrix (Option.some (1/2)) [((0, 1), [9/10, 2/5, 1/5])]) ∧
    censorMatrix Option.none [((0, 1), ([9/10, 2/5, 1/5] : List ℚ))]
      = [((0, 1), [9/10, 2/5, 1/5])]) :=
  ⟨by norm_num, censorMatrix_spec (1/2) (by norm_num) _⟩

/-! ### C5: a failing batch aborts the whole pass (corrected) -/

lemma computeBatches_abort {ε : Type}
    (compute : List (Nat × Nat) → Except ε CMatrix) :
    ∀ (bs : List (List (Nat × Nat))) (acc : List CMatrix) (i : Nat) (e : ε),
      i < bs.length →
      compute (bs.getD i []) = Except.error e →
      (∀ j, j < i → ∃ mj, compute (bs.getD j []) = Except.ok mj) →
      ∃ ms, computeBatches compute bs acc = Except.error (e, acc ++ ms) ∧
        ms.length = i := by
  intro bs
  induction bs with
  | nil => intro acc i e hi _ _; simp at hi
  | cons b bs2 ih =>
    intro acc i e hi hfail hok
    cases i with
    | zero =>
      refine ⟨[], ?_, rfl⟩
      simp only [List.getD_cons_zero] at hfail
      unfold computeBatches
      rw [hfail]
      simp
    | succ i2 =>
      rcases hok 0 (Nat.succ_pos i2) with ⟨m0, hm0⟩
      simp only [List.getD_cons_zero] at hm0
      simp only [List.getD_cons_succ] at hfail
      have hok2 : ∀ j, j < i2 → ∃ mj, compute (bs2.getD j []) = Except.ok mj := by
        intro j hj
        rcases hok (j + 1) (by omega) with ⟨mj, hmj⟩
        simp only [List.getD_cons_succ] at hmj
        exact ⟨mj, hmj⟩
      rcases ih (acc ++ [m0]) i2 e (by simpa using hi) hfail hok2 with ⟨ms2, hms2, hlen⟩
      refine ⟨m0 :: ms2, ?_, by simp [hlen]⟩
      unfold computeBatches
      rw [hm0]
      show computeBatches compute bs2 (acc ++ [m0]) = Except.error (e, acc ++ m0 :: ms2)
      rw [hms2]
      simp

/-- C5 (amended): in batch mode, the first failing batch aborts the whole
comparison pass with that error propagated and no later batch consulted
(no retry); no completed matrix is produced, but the object is left with
its `_comparison_matrix` attribute holding the partial list of per-batch
blocks computed before the failure, not its value from before the call. -/
theorem perform_linkage_batch_abort {ε : Type}
    (compute : List (Nat × Nat) → Except ε CMatrix)
    (threshold : Option ℚ) (number_of_blocks : Nat) (st : MatchState)
    (e : ε) (i : Nat)
    (hcp : st.candidate_pairs ≠ [])
    (hnb : 1 < number_of_blocks)
    (hi : i < (split_list st.candidate_pairs number_of_blocks).length)
    (hfail : compute ((split_list st.candidate_pairs number_of_blocks).getD i [])
      = Except.error e)
    (hok : ∀ j, j < i →
      ∃ mj, compute ((split_list st.candidate_pairs number_of_blocks).getD j [])
        = Except.ok mj) :
    ∃ ms : List CMatrix, ms.length = i ∧
      perform_linkage compute threshold number_of_blocks st
        = ({ st with comparison_matrix := CompAttr.blocks ms }, Option.some e) := by
  rcases computeBatches_abort compute (split_list st.candidate_pairs number_of_blocks)
      [] i e hi hfail hok with ⟨ms, hms, hlen⟩
  refine ⟨ms, hlen, ?_⟩
  unfold perform_linkage
  have hne : st.candidate_pairs.length ≠ 0 := by
    intro h
    exact hcp (List.length_eq_zero.mp h)
  rw [if_neg (by omega), if_pos ⟨hne, hnb⟩]
  rw [hms]
  simp

/-- Witness for C5 (amended) at a concrete two-batch failing run. -/
theorem perform_linkage_batch_abort_witness :
    ([(1, 2), (2, 3)] ≠ ([] : List (Nat × Nat))) ∧
    (1 < 2) ∧
    (∃ ms : List CMatrix, ms.length = 0 ∧
      perform_linkage (fun _ => (Except.error "boom" : Except String CMatrix))
          Option.none 2 ⟨[(1, 2), (2, 3)], CompAttr.none, Option.none, []⟩
        = (⟨[(1, 2), (2, 3)], CompAttr.blocks ms, Option.none, []⟩,
            Option.some "boom")) := by
  refine ⟨by decide, by decide, ?_⟩
  exact perform_linkage_batch_abort (fun _ => Except.error "boom") Option.none 2
    ⟨[(1, 2), (2, 3)], CompAttr.none, Option.none, []⟩ "boom" 0
    (by decide) (by decide) (by decide) rfl (by omega)

/-- Counterexample to C5 as stated: after a failing batched run the
object comparison matrix is NOT the value it had before the call (the
prior `None` has been clobbered with the empty partial block list). -/
theorem perform_linkage_batch_retention_counterexample :
    (perform_linkage (fun _ => (Except.error "boom" : Except String CMatrix))
        Option.none 2 ⟨[(1, 2), (2, 3)], CompAttr.none, Option.none, []⟩).2
      = Option.some "boom" ∧
    (perform_linkage (fun _ => (Except.error "boom" : Except String CMatrix))
        Option.none 2 ⟨[(1, 2), (2, 3)], CompAttr.none, Option.none, []⟩).1.comparison_matrix
      ≠ CompAttr.none := by
  constructor
  · rfl
  · decide

/-! ## MatchingBase input/output (data_matching/matching_base.py)

`save_pairs`, `save_files` and `load_pairs` exchange paginated JSON
files of classified pairs with the filesystem.  The filesystem is
modelled as an association list from paths (lists of components) to
file contents; directories and their creation are not modelled (no
claim mentions them).  A record snapshot (`df[cols].loc[id].to_dict()`)
is a list of column/value pairs; the column projection itself is kept
abstract because no claim inspects snapshot contents.  A dataframe is
an association list from identifier to snapshot; a missing identifier
raises a pandas `KeyError`, embedded as `Except.error`. -/

abbrev Row : Type := List (String × String)

/-- One element of the exported `pairs` array (see `create_json_pairs`
and ` format_annotation` in utils.py). -/
structure PairElement : Type where
  cod : Nat
  classification : String
  a : Row
  b : Row
  id_a : Nat
  id_b : Nat
  agg : Option Row
deriving DecidableEq

/-- A written JSON file: the top-level object `{"pairs": [...]}`. -/
structure PairsFile : Type where
  pairs : List PairElement
deriving DecidableEq

abbrev FS : Type := List (List String × PairsFile)

/-- Writing a file replaces any previous content at that path. -/
def fsWrite (fs : FS) (p : List String) (c : PairsFile) : FS :=
  (p, c) :: fs.filter (fun e => e.1 ≠ p)

def fsRead : FS → List String → Option PairsFile
  | [], _ => Option.none
  | e :: rest, p => if e.1 = p then Option.some e.2 else fsRead rest p

/-- `df.loc[i]` on an identifier-indexed dataframe. -/
def dfLoc : List (Nat × Row) → Nat → Except String Row
  | [], _ => Except.error "KeyError"
  | e :: rest, i => if e.1 = i then Except.ok e.2 else dfLoc rest i

/-- The right-hand snapshot of a pair: taken from `right_df` for
linkage, from `left_df` for deduplication (utils.py lines 214-217). -/
def dfLocRight (left_df : List (Nat × Row)) (right_df : Option (List (Nat × Row)))
    (i : Nat) : Except String Row :=
  match right_df with
  | Option.some rdf => dfLoc rdf i
  | Option.none => dfLoc left_df i

/-- `agg_df.loc[(a, b)]`. -/
def aggLoc : List ((Nat × Nat) × Row) → (Nat × Nat) → Except String Row
  | [], _ => Except.error "KeyError"
  | e :: rest, p => if e.1 = p then Except.ok e.2 else aggLoc rest p

/-- The loop of `create_json_pairs` (utils.py lines 207-233); `count` is
the number of pairs already emitted, so the current `cod` is `count + 1`
and the loop breaks after emitting when `rec_max == count + 1`. -/
def create_json_pairs_loop (left_df : List (Nat × Row))
    (right_df : Option (List (Nat × Row)))
    (agg_df : Option (List ((Nat × Nat) × Row)))
    (classification : String) (rec_max : Option Nat) :
    List (Nat × Nat) → Nat → Except String (List PairElement)
  | [], _ => Except.ok []
  | p :: rest, count =>
    match dfLoc left_df p.1 with
    | Except.error e => Except.error e
    | Except.ok left_pair =>
      match dfLocRight left_df right_df p.2 with
      | Except.error e => Except.error e
      | Except.ok right_pair =>
        match (match agg_df with
          | Option.some adf => (aggLoc adf (p.1, p.2)).map Option.some
          | Option.none => Except.ok Option.none) with
        | Except.error e => Except.error e
        | Except.ok agg =>
          let elem : PairElement :=
            ⟨count + 1, classification, left_pair, right_pair, p.1, p.2, agg⟩
          if rec_max = Option.some (count + 1) then Except.ok [elem]
          else
            match create_json_pairs_loop left_df right_df agg_df classification
                rec_max rest (count + 1) with
            | Except.error e => Except.error e
            | Except.ok tl => Except.ok (elem :: tl)

/-- `create_json_pairs` (utils.py lines 179-233). -/
def create_json_pairs (left_df : List (Nat × Row))
    (right_df : Option (List (Nat × Row))) (list_of_pairs : List (Nat × Nat))
    (agg_df : Option (List ((Nat × Nat) × Row)))
    (classification : String) (rec_max : Option Nat) :
    Except String (List PairElement) :=
  create_json_pairs_loop left_df right_df agg_df classification rec_max
    list_of_pairs 0

/-- ` format_annotation` (utils.py lines 141-177).  The internal batching
by `batchsize` only bounds memory: the produced object list and the
failure behaviour are those of the element-by-element loop embedded
here.  Note the source subscripts `agg[subindex]` even when `agg_df` is
`None`, a `TypeError`; embedded as an error. -/
def format_annotation (left_df : List (Nat × Row))
    (right_df : Option (List (Nat × Row)))
    (agg_df : Option (List ((Nat × Nat) × Row))) :
    List (Nat × Nat) → Nat → Except String (List PairElement)
  | [], _ => Except.ok []
  | p :: rest, count =>
    match dfLoc left_df p.1 with
    | Except.error e => Except.error e
    | Except.ok left_rec =>
      match dfLocRight left_df right_df p.2 with
      | Except.error e => Except.error e
      | Except.ok right_rec =>
        match (match agg_df with
          | Option.some adf => aggLoc adf (p.1, p.2)
          | Option.none =>
            (Except.error "TypeError: agg is None" : Except String Row)) with
        | Except.error e => Except.error e
        | Except.ok agg =>
          match format_annotation left_df right_df agg_df rest (count + 1) with
          | Except.error e => Except.error e
          | Except.ok tl =>
            Except.ok (⟨count + 1, "", left_rec, right_rec, p.1, p.2,
              Option.some agg⟩ :: tl)

/-- Python list slicing into consecutive batches of size `bs`
(`[l[x:x+bs] for x in range(0, len(l), bs)]`). -/
def chunkList {α : Type} : Nat → List α → List (List α)
  | 0, _ => []
  | _, [] => []
  | b + 1, x :: xs =>
    (x :: xs).take (b + 1) :: chunkList (b + 1) ((x :: xs).drop (b + 1))
termination_by _ l => l.length
decreasing_by
  simp only [List.length_drop, List.length_cons]
  omega

/-- `MatchingBase.save_pairs` (matching_base.py lines 209-270).  Result:
the filesystem after the call, plus the exception that propagated, if
any.  The overwrite guard `if not overwrite: raise` precedes every
write. -/
def save_pairs (env_folder : Option (List String))
    (left_df : List (Nat × Row)) (right_df : Option (List (Nat × Row)))
    (positive_pairs potential_pairs negative_pairs : List (Nat × Nat))
    (agg_df : Option (List ((Nat × Nat) × Row)))
    (overwrite : Bool) (negative_max : Nat) (fs : FS) : FS × Option String :=
  match env_folder with
  | Option.none => (fs, Option.some "No working folder was provided.")
  | Option.some env =>
    if overwrite = false then
      (fs, Option.some "Overwrite of annotation files not allowed.")
    else
      match create_json_pairs left_df right_df positive_pairs agg_df
          "positive" Option.none with
      | Except.error e => (fs, Option.some e)
      | Except.ok pos =>
        let fs1 := fsWrite fs (env ++ ["annotation_files", "POSITIVE_PAIRS.json"]) ⟨pos⟩
        match create_json_pairs left_df right_df potential_pairs agg_df
            "potential" Option.none with
        | Except.error e => (fs1, Option.some e)
        | Except.ok pot =>
          let fs2 := fsWrite fs1 (env ++ ["annotation_files", "POTENTIAL_PAIRS.json"]) ⟨pot⟩
          match create_json_pairs left_df right_df negative_pairs agg_df
              "negative" (Option.some negative_max) with
          | Except.error e => (fs2, Option.some e)
          | Except.ok neg =>
            (fsWrite fs2 (env ++ ["annotation_files", "NEGATIVE_PAIRS.json"]) ⟨neg⟩,
              Option.none)

/-- `MatchingBase.save_files` (matching_base.py lines 162-206): writes
the formatted pair list paginated as `PAIRS_0.json`, `PAIRS_1.json`,
... of at most `batchsize` elements each, into the working folder.  The
overwrite guard precedes every write here as well. -/
def save_files (env_folder output_folder : Option (List String))
    (left_df : List (Nat × Row)) (right_df : Option (List (Nat × Row)))
    (aggr_df : Option (List ((Nat × Nat) × Row)))
    (pairs : List (Nat × Nat)) (overwrite : Bool) (batchsize : Nat)
    (fs : FS) : FS × Option String :=
  match env_folder, output_folder with
  | Option.none, Option.none => (fs, Option.some "No working folder was provided.")
  | e1, e2 =>
    let output := match e1 with
      | Option.some env => env
      | Option.none => e2.getD []
    if overwrite = false then
      (fs, Option.some "Overwrite of annotation files not allowed.")
    else
      match format_annotation left_df right_df aggr_df pairs 0 with
      | Except.error e => (fs, Option.some e)
      | Except.ok json_list =>
        let batches := chunkList batchsize json_list
        (((List.range batches.length).zip batches).foldl
          (fun fs2 ib =>
            fsWrite fs2 (output ++ ["PAIRS_" ++ toString ib.1 ++ ".json"]) ⟨ib.2⟩)
          fs, Option.none)

/-- `MatchingBase.load_pairs` (matching_base.py lines 273-295): reads the
positive and potential files back and produces the rows of the
reconstructed table, one `(left_id, right_id, classification)` triple
per imported pair. -/
def load_pairs (env_folder : Option (List String))
    (annot_folder : String) (fs : FS) :
    Except String (List (Nat × Nat × String)) :=
  match env_folder with
  | Option.none => Except.error "TypeError: env_folder is None"
  | Option.some env =>
    match fsRead fs (env ++ [annot_folder, "POSITIVE_PAIRS.json"]) with
    | Option.none => Except.error "FileNotFoundError"
    | Option.some pos =>
      match fsRead fs (env ++ [annot_folder, "POTENTIAL_PAIRS.json"]) with
      | Option.none => Except.error "FileNotFoundError"
      | Option.some pot =>
        Except.ok ((pos.pairs ++ pot.pairs).map
          (fun e => (e.id_a, e.id_b, e.classification)))

/-! ### C6: no overwrite of annotation files without the explicit flag -/

/-- C6: with the overwrite flag unset, `save_pairs` and `save_files`
raise and write nothing (the filesystem is returned unchanged, whether
or not the target files already exist), and any call that does change
the filesystem necessarily had the flag set. -/
theorem save_overwrite_guard (env_folder output_folder : Option (List String))
    (left_df : List (Nat × Row)) (right_df : Option (List (Nat × Row)))
    (positive_pairs potential_pairs negative_pairs pairs : List (Nat × Nat))
    (agg_df : Option (List ((Nat × Nat) × Row)))
    (negative_max batchsize : Nat) (fs : FS) :
    ((save_pairs env_folder left_df right_df positive_pairs potential_pairs
        negative_pairs agg_df false negative_max fs).1 = fs ∧
      (save_pairs env_folder left_df right_df positive_pairs potential_pairs
        negative_pairs agg_df false negative_max fs).2.isSome = true) ∧
    ((save_files env_folder output_folder left_df right_df agg_df pairs
        false batchsize fs).1 = fs ∧
      (save_files env_folder output_folder left_df right_df agg_df pairs
        false batchsize fs).2.isSome = true) ∧
    (∀ ov : Bool, (save_pairs env_folder left_df right_df positive_pairs
        potential_pairs negative_pairs agg_df ov negative_max fs).1 ≠ fs →
        ov = true) ∧
    (∀ ov : Bool, (save_files env_folder output_folder left_df right_df agg_df
        pairs ov batchsize fs).1 ≠ fs → ov = true) := by
  have hp : (save_pairs env_folder left_df right_df positive_pairs potential_pairs
      negative_pairs agg_df false negative_max fs).1 = fs ∧
      (save_pairs env_folder left_df right_df positive_pairs potential_pairs
        negative_pairs agg_df false negative_max fs).2.isSome = true := by
    unfold save_pairs
    cases env_folder with
    | none => exact ⟨rfl, rfl⟩
    | some env => simp
  have hf : (save_files env_folder output_folder left_df right_df agg_df pairs
      false batchsize fs).1 = fs ∧
      (save_files env_folder output_folder left_df right_df agg_df pairs
        false batchsize fs).2.isSome = true := by
    unfold save_files
    cases env_folder with
    | none =>
      cases output_folder with
      | none => exact ⟨rfl, rfl⟩
      | some out => simp
    | some env => cases output_folder <;> simp
  refine ⟨hp, hf, ?_, ?_⟩
  · intro ov hov
    cases ov with
    | false => exact absurd hp.1 hov
    | true => rfl
  · intro ov hov
    cases ov with
    | false => exact absurd hf.1 hov
    | true => rfl

/-! ### C7: save_pairs / load_pairs round trip -/

lemma create_json_pairs_loop_ok (left_df : List (Nat × Row))
    (right_df : Option (List (Nat × Row))) (classification : String) :
    ∀ (lst : List (Nat × Nat)) (count : Nat),
      (∀ p ∈ lst, (dfLoc left_df p.1).isOk = true ∧
        (dfLocRight left_df right_df p.2).isOk = true) →
      ∃ elems, create_json_pairs_loop left_df right_df Option.none classification
          Option.none lst count = Except.ok elems ∧
        elems.map (fun e => (e.id_a, e.id_b, e.classification))
          = lst.map (fun p => (p.1, p.2, classification)) := by
  intro lst
  induction lst with
  | nil => intro count _; exact ⟨[], rfl, rfl⟩
  | cons p rest ih =>
    intro count hpres
    rcases hpres p (List.mem_cons_self p rest) with ⟨h1, h2⟩
    rcases ih (count + 1) (fun q hq => hpres q (List.mem_cons_of_mem p hq))
      with ⟨tl, htl, hmap⟩
    cases hl : dfLoc left_df p.1 with
    | error e => rw [hl] at h1; simp [Except.isOk, Except.toBool] at h1
    | ok lrow =>
      cases hr : dfLocRight left_df right_df p.2 with
      | error e => rw [hr] at h2; simp [Except.isOk, Except.toBool] at h2
      | ok rrow =>
        refine ⟨⟨count + 1, classification, lrow, rrow, p.1, p.2, Option.none⟩ :: tl,
          ?_, by simp [hmap]⟩
        simp only [create_json_pairs_loop, hl, hr, htl]
        rw [if_neg (by simp)]

lemma create_json_pairs_loop_ok_capped (left_df : List (Nat × Row))
    (right_df : Option (List (Nat × Row))) (classification : String) (nm : Nat) :
    ∀ (lst : List (Nat × Nat)) (count : Nat),
      (∀ p ∈ lst, (dfLoc left_df p.1).isOk = true ∧
        (dfLocRight left_df right_df p.2).isOk = true) →
      ∃ elems, create_json_pairs_loop left_df right_df Option.none classification
          (Option.some nm) lst count = Except.ok elems := by
  intro lst
  induction lst with
  | nil => intro count _; exact ⟨[], rfl⟩
  | cons p rest ih =>
    intro count hpres
    rcases hpres p (List.mem_cons_self p rest) with ⟨h1, h2⟩
    rcases ih (count + 1) (fun q hq => hpres q (List.mem_cons_of_mem p hq))
      with ⟨tl, htl⟩
    cases hl : dfLoc left_df p.1 with
    | error e => rw [hl] at h1; simp [Except.isOk, Except.toBool] at h1
    | ok lrow =>
      cases hr : dfLocRight left_df right_df p.2 with
      | error e => rw [hr] at h2; simp [Except.isOk, Except.toBool] at h2
      | ok rrow =>
        simp only [create_json_pairs_loop, hl, hr, htl]
        by_cases hcap : (Option.some nm : Option Nat) = Option.some (count + 1)
        · rw [if_pos hcap]
          exact ⟨_, rfl⟩
        · rw [if_neg hcap]
          exact ⟨_, rfl⟩

lemma fsRead_cons (e : List String × PairsFile) (rest : FS) (p : List String) :
    fsRead (e :: rest) p = if e.1 = p then Option.some e.2 else fsRead rest p :=
  rfl

lemma fsRead_fsWrite_eq (fs : FS) (p : List String) (c : PairsFile) :
    fsRead (fsWrite fs p c) p = Option.some c := by
  rw [show fsWrite fs p c = (p, c) :: fs.filter (fun e => e.1 ≠ p) from rfl]
  rw [fsRead_cons]
  rw [if_pos rfl]

lemma fsRead_filter_ne (q : List String) :
    ∀ (fs : FS) (p : List String), p ≠ q →
      fsRead (fs.filter (fun e => e.1 ≠ q)) p = fsRead fs p := by
  intro fs
  induction fs with
  | nil => intro p _; rfl
  | cons e rest ih =>
    intro p hpq
    by_cases he : e.1 = q
    · rw [List.filter_cons_of_neg (by simp [he])]
      rw [ih p hpq]
      rw [fsRead_cons]
      rw [if_neg (by rw [he]; exact fun h => hpq h.symm)]
    · rw [List.filter_cons_of_pos (by simp [he])]
      rw [fsRead_cons, fsRead_cons]
      by_cases hep : e.1 = p
      · rw [if_pos hep, if_pos hep]
      · rw [if_neg hep, if_neg hep]
        exact ih p hpq

lemma fsRead_fsWrite_ne (fs : FS) (p q : List String) (c : PairsFile)
    (h : p ≠ q) : fsRead (fsWrite fs q c) p = fsRead fs p := by
  rw [show fsWrite fs q c = (q, c) :: fs.filter (fun e => e.1 ≠ q) from rfl]
  rw [fsRead_cons]
  rw [if_neg (by exact fun h2 => h (h2.symm))]
  exact fsRead_filter_ne q fs p h

/-- C7: exporting positive/potential/negative pair lists with
`save_pairs` (overwrite permitted) and re-importing with `load_pairs`
reconstructs exactly the `(left_id, right_id, classification)` triples
of the exported positive pairs (classified "positive") followed by the
potential pairs (classified "potential"), for every identifier-complete
input; `save_pairs` performs no pagination, so no batch size can affect
the result. -/
theorem save_load_round_trip (env : List String)
    (left_df : List (Nat × Row)) (right_df : Option (List (Nat × Row)))
    (positive_pairs potential_pairs negative_pairs : List (Nat × Nat))
    (negative_max : Nat) (fs : FS)
    (hpres : ∀ p ∈ positive_pairs ++ potential_pairs ++ negative_pairs,
      (dfLoc left_df p.1).isOk = true ∧
      (dfLocRight left_df right_df p.2).isOk = true) :
    (save_pairs (Option.some env) left_df right_df positive_pairs potential_pairs
      negative_pairs Option.none true negative_max fs).2 = Option.none ∧
    load_pairs (Option.some env) "annotation_files"
      (save_pairs (Option.some env) left_df right_df positive_pairs potential_pairs
        negative_pairs Option.none true negative_max fs).1
      = Except.ok (positive_pairs.map (fun p => (p.1, p.2, "positive"))
          ++ potential_pairs.map (fun p => (p.1, p.2, "potential"))) := by
  have hpos := create_json_pairs_loop_ok left_df right_df "positive" positive_pairs 0
    (fun p hp => hpres p (by simp [hp]))
  have hpot := create_json_pairs_loop_ok left_df right_df "potential" potential_pairs 0
    (fun p hp => hpres p (by simp [hp]))
  have hneg := create_json_pairs_loop_ok_capped left_df right_df "negative"
    negative_max negative_pairs 0 (fun p hp => hpres p (by simp [hp]))
  rcases hpos with ⟨l1, hl1, hm1⟩
  rcases hpot with ⟨l2, hl2, hm2⟩
  rcases hneg with ⟨l3, hl3⟩
  have hsave : save_pairs (Option.some env) left_df right_df positive_pairs
      potential_pairs negative_pairs Option.none true negative_max fs
      = (fsWrite (fsWrite (fsWrite fs
          (env ++ ["annotation_files", "POSITIVE_PAIRS.json"]) ⟨l1⟩)
          (env ++ ["annotation_files", "POTENTIAL_PAIRS.json"]) ⟨l2⟩)
          (env ++ ["annotation_files", "NEGATIVE_PAIRS.json"]) ⟨l3⟩,
        Option.none) := by
    simp only [save_pairs, create_json_pairs, hl1, hl2, hl3]
    rw [if_neg (by simp)]
  rw [hsave]
  refine ⟨rfl, ?_⟩
  simp only [load_pairs]
  have hne1 : env ++ ["annotation_files", "POSITIVE_PAIRS.json"]
      ≠ env ++ ["annotation_files", "NEGATIVE_PAIRS.json"] := by
    intro h
    have := List.append_cancel_left h
    simp at this
  have hne2 : env ++ ["annotation_files", "POSITIVE_PAIRS.json"]
      ≠ env ++ ["annotation_files", "POTENTIAL_PAIRS.json"] := by
    intro h
    have := List.append_cancel_left h
    simp at this
  have hne3 : env ++ ["annotation_files", "POTENTIAL_PAIRS.json"]
      ≠ env ++ ["annotation_files", "NEGATIVE_PAIRS.json"] := by
    intro h
    have := List.append_cancel_left h
    simp at this
  rw [fsRead_fsWrite_ne _ _ _ _ hne1, fsRead_fsWrite_ne _ _ _ _ hne2,
    fsRead_fsWrite_eq]
  rw [fsRead_fsWrite_ne _ _ _ _ hne3, fsRead_fsWrite_eq]
  simp only []
  rw [List.map_append, hm1, hm2]

/-- Witness for C7 at a concrete two-record dataframe and pair lists. -/
theorem save_load_round_trip_witness :
    (∀ p ∈ ([(1, 2)] ++ [(2, 1)] ++ ([] : List (Nat × Nat))),
      (dfLoc [(1, [("nome", "ANA")]), (2, [("nome", "ANA")])] p.1).isOk = true ∧
      (dfLocRight [(1, [("nome", "ANA")]), (2, [("nome", "ANA")])] Option.none
        p.2).isOk = true) ∧
    ((save_pairs (Option.some ["work"]) [(1, [("nome", "ANA")]), (2, [("nome", "ANA")])]
        Option.none [(1, 2)] [(2, 1)] [] Option.none true 1000 []).2 = Option.none ∧
    load_pairs (Option.some ["work"]) "annotation_files"
      (save_pairs (Option.some ["work"]) [(1, [("nome", "ANA")]), (2, [("nome", "ANA")])]
        Option.none [(1, 2)] [(2, 1)] [] Option.none true 1000 []).1
      = Except.ok ([(1, 2)].map (fun p => (p.1, p.2, "positive"))
          ++ [(2, 1)].map (fun p => (p.1, p.2, "potential")))) :=
  ⟨by decide, save_load_round_trip ["work"]
    [(1, [("nome", "ANA")]), (2, [("nome", "ANA")])] Option.none
    [(1, 2)] [(2, 1)] [] 1000 [] (by decide)⟩

/-! ## linkage_grouping (data_matching/utils.py, lines 304-326)

`pairs.groupby("left")["right"].value_counts()` — group keys sorted
ascending (pandas groupby default), and within each group the distinct
right identifiers ordered by descending count with ties in order of
first occurrence (pandas value_counts).  The `result.setdefault(k,
[]).append(v)` loop then rebuilds exactly the per-key lists in that
order.  The pandas parts are external library calls, embedded here by
their behaviour. -/

/-- Ascending insertion used to model sorted orders (numpy unique sort,
pandas groupby key sort). -/
def insertSorted (x : Nat) : List Nat → List Nat
  | [] => [x]
  | y :: ys => if x ≤ y then x :: y :: ys else y :: insertSorted x ys

/-- Sorted list of the distinct values of `l` (numpy `unique` /
pandas sorted group keys). -/
def uniqueSorted (l : List Nat) : List Nat := l.dedup.foldr insertSorted []

/-- Distinct values in order of first occurrence. -/
def distinctFirst : List Nat → List Nat
  | [] => []
  | x :: xs => x :: (distinctFirst xs).filter (fun y => y ≠ x)

/-- Stable descending insertion by count: the new element goes before
the first element of not-larger count, so equal counts keep their
relative order. -/
def insertByCount (cnt : Nat → Nat) (x : Nat) : List Nat → List Nat
  | [] => [x]
  | y :: ys => if cnt x < cnt y then y :: insertByCount cnt x ys
    else x :: y :: ys

def sortByCountDesc (cnt : Nat → Nat) : List Nat → List Nat
  | [] => []
  | x :: xs => insertByCount cnt x (sortByCountDesc cnt xs)

/-- pandas `value_counts` index for one group: distinct values by
descending count, ties by first occurrence. -/
def value_counts (rights : List Nat) : List Nat :=
  sortByCountDesc (fun r => rights.count r) (distinctFirst rights)

/-- The right-identifier column of the group of `pairs` with left
identifier `l` (in input order). -/
def groupRights (pairs : List (Nat × Nat)) (l : Nat) : List Nat :=
  (pairs.filter (fun p => p.1 = l)).map Prod.snd

/-- `linkage_grouping` (utils.py lines 304-326). -/
def linkage_grouping (pairs : List (Nat × Nat)) : List (Nat × List Nat) :=
  (uniqueSorted (pairs.map Prod.fst)).map
    (fun l => (l, value_counts (groupRights pairs l)))

/- Membership and distinctness lemmas for the order helpers. -/

lemma mem_insertSorted (x y : Nat) : ∀ l : List Nat,
    (y ∈ insertSorted x l ↔ y = x ∨ y ∈ l) := by
  intro l
  induction l with
  | nil => simp [insertSorted]
  | cons z zs ih =>
    unfold insertSorted
    by_cases h : x ≤ z
    · rw [if_pos h]
      simp
    · rw [if_neg h]
      simp only [List.mem_cons, ih]
      tauto

lemma nodup_insertSorted (x : Nat) : ∀ l : List Nat, x ∉ l → l.Nodup →
    (insertSorted x l).Nodup := by
  intro l
  induction l with
  | nil => intro _ _; simp [insertSorted]
  | cons z zs ih =>
    intro hx hnd
    unfold insertSorted
    by_cases h : x ≤ z
    · rw [if_pos h]
      exact List.nodup_cons.mpr ⟨hx, hnd⟩
    · rw [if_neg h]
      rcases List.nodup_cons.mp hnd with ⟨hz, hzs⟩
      refine List.nodup_cons.mpr ⟨?_, ih (fun hm => hx (List.mem_cons_of_mem z hm)) hzs⟩
      rw [mem_insertSorted]
      rintro (hzx | hzzs)
      · exact hx (by rw [hzx]; exact List.mem_cons_self x zs)
      · exact hz hzzs

lemma uniqueSorted_spec (l : List Nat) :
    (∀ x, x ∈ uniqueSorted l ↔ x ∈ l) ∧ (uniqueSorted l).Nodup := by
  unfold uniqueSorted
  have key : ∀ d : List Nat, d.Nodup →
      (∀ x, x ∈ d.foldr insertSorted [] ↔ x ∈ d) ∧ (d.foldr insertSorted []).Nodup := by
    intro d
    induction d with
    | nil => intro _; simp
    | cons z zs ih =>
      intro hnd
      rcases List.nodup_cons.mp hnd with ⟨hz, hzs⟩
      rcases ih hzs with ⟨ihm, ihnd⟩
      constructor
      · intro x
        simp only [List.foldr_cons, mem_insertSorted, ihm, List.mem_cons]
      · simp only [List.foldr_cons]
        refine nodup_insertSorted z _ ?_ ihnd
        rw [ihm]
        exact hz
    
  rcases key l.dedup l.nodup_dedup with ⟨hm, hnd⟩
  refine ⟨fun x => ?_, hnd⟩
  rw [hm x, List.mem_dedup]

lemma mem_distinctFirst (y : Nat) : ∀ l : List Nat,
    y ∈ distinctFirst l ↔ y ∈ l := by
  intro l
  induction l with
  | nil => simp [distinctFirst]
  | cons x xs ih =>
    rw [distinctFirst]
    simp only [List.mem_cons, List.mem_filter, ih]
    by_cases h : y = x
    · simp [h]
    · simp [h]

lemma nodup_distinctFirst : ∀ l : List Nat, (distinctFirst l).Nodup := by
  intro l
  induction l with
  | nil => simp [distinctFirst]
  | cons x xs ih =>
    rw [distinctFirst]
    refine List.nodup_cons.mpr ⟨?_, ih.filter _⟩
    intro hmem
    rcases List.mem_filter.mp hmem with ⟨_, hne⟩
    simp at hne

/-- `distinctFirst` lists values in strictly increasing order of first
occurrence. -/
lemma pairwise_indexOf_distinctFirst : ∀ l : List Nat,
    (distinctFirst l).Pairwise (fun a b => l.indexOf a < l.indexOf b) := by
  intro l
  induction l with
  | nil => simp [distinctFirst]
  | cons x xs ih =>
    rw [distinctFirst]
    refine List.pairwise_cons.mpr ⟨?_, ?_⟩
    · intro b hb
      rcases List.mem_filter.mp hb with ⟨_, hbx⟩
      have hbx2 : b ≠ x := by simpa using hbx
      rw [List.indexOf_cons_self, List.indexOf_cons_ne xs (fun h2 => hbx2 h2.symm)]
      omega
    · refine List.Pairwise.imp_of_mem ?_ (ih.filter _)
      intro a b ha hb hlt
      have hax : a ≠ x := by simpa using (List.mem_filter.mp ha).2
      have hbx : b ≠ x := by simpa using (List.mem_filter.mp hb).2
      rw [List.indexOf_cons_ne xs (fun h2 => hax h2.symm)]
      rw [List.indexOf_cons_ne xs (fun h2 => hbx h2.symm)]
      omega

lemma mem_insertByCount (cnt : Nat → Nat) (x y : Nat) : ∀ l : List Nat,
    (y ∈ insertByCount cnt x l ↔ y = x ∨ y ∈ l) := by
  intro l
  induction l with
  | nil => simp [insertByCount]
  | cons z zs ih =>
    unfold insertByCount
    by_cases h : cnt x < cnt z
    · rw [if_pos h]
      simp only [List.mem_cons, ih]
      tauto
    · rw [if_neg h]
      simp

lemma mem_sortByCountDesc (cnt : Nat → Nat) : ∀ (l : List Nat) (y : Nat),
    (y ∈ sortByCountDesc cnt l ↔ y ∈ l) := by
  intro l
  induction l with
  | nil => intro y; simp [sortByCountDesc]
  | cons z zs ih =>
    intro y
    unfold sortByCountDesc
    rw [mem_insertByCount]
    simp [ih]

lemma nodup_insertByCount (cnt : Nat → Nat) (x : Nat) : ∀ l : List Nat,
    x ∉ l → l.Nodup → (insertByCount cnt x l).Nodup := by
  intro l
  induction l with
  | nil => intro _ _; simp [insertByCount]
  | cons z zs ih =>
    intro hx hnd
    rcases List.nodup_cons.mp hnd with ⟨hz, hzs⟩
    unfold insertByCount
    by_cases h : cnt x < cnt z
    · rw [if_pos h]
      refine List.nodup_cons.mpr ⟨?_, ih (fun hm => hx (List.mem_cons_of_mem z hm)) hzs⟩
      rw [mem_insertByCount]
      rintro (hzx | hzzs)
      · exact hx (by rw [hzx]; exact List.mem_cons_self x zs)
      · exact hz hzzs
    · rw [if_neg h]
      exact List.nodup_cons.mpr ⟨hx, hnd⟩

lemma nodup_sortByCountDesc (cnt : Nat → Nat) : ∀ l : List Nat,
    l.Nodup → (sortByCountDesc cnt l).Nodup := by
  intro l
  induction l with
  | nil => intro _; simp [sortByCountDesc]
  | cons z zs ih =>
    intro hnd
    rcases List.nodup_cons.mp hnd with ⟨hz, hzs⟩
    unfold sortByCountDesc
    refine nodup_insertByCount cnt z _ ?_ (ih hzs)
    rw [mem_sortByCountDesc]
    exact hz

/-- The order produced by one stable descending insertion. -/
lemma pairwise_insertByCount (cnt pos : Nat → Nat) (x : Nat) :
    ∀ l : List Nat,
      l.Pairwise (fun a b => cnt b < cnt a ∨ (cnt a = cnt b ∧ pos a < pos b)) →
      (∀ y ∈ l, pos x < pos y) →
      (insertByCount cnt x l).Pairwise
        (fun a b => cnt b < cnt a ∨ (cnt a = cnt b ∧ pos a < pos b)) := by
  intro l
  induction l with
  | nil => intro _ _; simp [insertByCount]
  | cons z zs ih =>
    intro hp hpos
    rcases List.pairwise_cons.mp hp with ⟨hz, hzs⟩
    unfold insertByCount
    by_cases h : cnt x < cnt z
    · rw [if_pos h]
      refine List.pairwise_cons.mpr ⟨?_, ih hzs (fun y hy => hpos y (List.mem_cons_of_mem z hy))⟩
      intro w hw
      rcases (mem_insertByCount cnt x w zs).mp hw with hwx | hwz
      · subst hwx
        exact Or.inl h
      · exact hz w hwz
    · rw [if_neg h]
      refine List.pairwise_cons.mpr ⟨?_, hp⟩
      intro w hw
      rcases List.mem_cons.mp hw with hwz | hwzs
      · subst hwz
        rcases Nat.lt_or_ge (cnt w) (cnt x) with h2 | h2
        · exact Or.inl h2
        · exact Or.inr ⟨by omega, hpos w (List.mem_cons_self w zs)⟩
      · rcases hz w hwzs with h2 | ⟨h2, _⟩
        · rcases Nat.lt_or_ge (cnt w) (cnt x) with h3 | h3
          · exact Or.inl h3
          · exact Or.inr ⟨by omega, hpos w (List.mem_cons_of_mem z hwzs)⟩
        · rcases Nat.lt_or_ge (cnt w) (cnt x) with h3 | h3
          · exact Or.inl h3
          · exact Or.inr ⟨by omega, hpos w (List.mem_cons_of_mem z hwzs)⟩

/-- The stable descending sort orders by descending count, ties by the
strictly increasing position the input already had. -/
lemma pairwise_sortByCountDesc (cnt pos : Nat → Nat) :
    ∀ l : List Nat, l.Pairwise (fun a b => pos a < pos b) →
      (sortByCountDesc cnt l).Pairwise
        (fun a b => cnt b < cnt a ∨ (cnt a = cnt b ∧ pos a < pos b)) := by
  intro l
  induction l with
  | nil => intro _; simp [sortByCountDesc]
  | cons z zs ih =>
    intro hp
    rcases List.pairwise_cons.mp hp with ⟨hz, hzs⟩
    unfold sortByCountDesc
    refine pairwise_insertByCount cnt pos z _ (ih hzs) ?_
    intro y hy
    exact hz y ((mem_sortByCountDesc cnt zs y).mp hy)

lemma groupRights_cons (p : Nat × Nat) (rest : List (Nat × Nat)) (l : Nat) :
    groupRights (p :: rest) l
      = if p.1 = l then p.2 :: groupRights rest l else groupRights rest l := by
  unfold groupRights
  by_cases h : p.1 = l
  · rw [if_pos h, List.filter_cons_of_pos (by simp [h]), List.map_cons]
  · rw [if_neg h, List.filter_cons_of_neg (by simp [h])]

lemma groupRights_count (pairs : List (Nat × Nat)) (l r : Nat) :
    (groupRights pairs l).count r = pairs.count (l, r) := by
  induction pairs with
  | nil => rfl
  | cons p rest ih =>
    rw [groupRights_cons, List.count_cons]
    by_cases h1 : p.1 = l
    · rw [if_pos h1, List.count_cons, ih]
      by_cases h2 : p.2 = r
      · rw [if_pos (by rw [beq_iff_eq]; exact h2),
          if_pos (by rw [beq_iff_eq, Prod.ext_iff]; exact ⟨h1, h2⟩)]
      · rw [if_neg (by rw [beq_iff_eq]; exact h2),
          if_neg (by
            rw [beq_iff_eq, Prod.ext_iff]
            rintro ⟨hl, hr⟩
            exact h2 hr)]
    · rw [if_neg h1, ih,
        if_neg (by
          rw [beq_iff_eq, Prod.ext_iff]
          rintro ⟨hl, hr⟩
          exact h1 hl)]
      omega

lemma groupRights_mem (pairs : List (Nat × Nat)) (l r : Nat) :
    r ∈ groupRights pairs l ↔ (l, r) ∈ pairs := by
  unfold groupRights
  rw [List.mem_map]
  constructor
  · rintro ⟨p, hp, hpr⟩
    rcases List.mem_filter.mp hp with ⟨hpm, hpl⟩
    have hpl2 : p.1 = l := by simpa using hpl
    have : p = (l, r) := by
      rcases p with ⟨p1, p2⟩
      simp at hpl2 hpr
      rw [hpl2, hpr]
    rw [this] at hpm
    exact hpm
  · intro hm
    exact ⟨(l, r), List.mem_filter.mpr ⟨hm, by simp⟩, rfl⟩

/-- C8: `linkage_grouping` has one entry per left identifier occurring
in the confirmed pairs; the entry of `l` lists its distinct matched
right identifiers, ordered by strictly descending match count with ties
broken by first occurrence in the input order; and spec scenario 5
holds: pairs (L1,R1), (L1,R2), (L1,R1) give the grouping [R1, R2] for
L1 (here L1 = 1, R1 = 101, R2 = 102). -/
theorem linkage_grouping_spec (pairs : List (Nat × Nat)) :
    (∀ l : Nat, (∃ rs, (l, rs) ∈ linkage_grouping pairs)
        ↔ l ∈ pairs.map Prod.fst) ∧
    (∀ l rs, (l, rs) ∈ linkage_grouping pairs →
      rs.Nodup ∧
      (∀ r, r ∈ rs ↔ (l, r) ∈ pairs) ∧
      rs.Pairwise (fun a b =>
        pairs.count (l, b) < pairs.count (l, a) ∨
        (pairs.count (l, a) = pairs.count (l, b) ∧
          (groupRights pairs l).indexOf a < (groupRights pairs l).indexOf b))) ∧
    linkage_grouping [(1, 101), (1, 102), (1, 101)] = [(1, [101, 102])] := by
  refine ⟨?_, ?_, by decide⟩
  · intro l
    constructor
    · rintro ⟨rs, hm⟩
      rcases List.mem_map.mp hm with ⟨k, hk, hkeq⟩
      have hkl : k = l := congrArg Prod.fst hkeq
      subst hkl
      exact ((uniqueSorted_spec _).1 k).mp hk
    · intro hl
      have hk : l ∈ uniqueSorted (pairs.map Prod.fst) :=
        ((uniqueSorted_spec _).1 l).mpr hl
      exact ⟨value_counts (groupRights pairs l),
        List.mem_map.mpr ⟨l, hk, rfl⟩⟩
  · intro l rs hm
    rcases List.mem_map.mp hm with ⟨k, hk, hkeq⟩
    have hkl : k = l := congrArg Prod.fst hkeq
    subst hkl
    have hrs : rs = value_counts (groupRights pairs k) :=
      (congrArg Prod.snd hkeq).symm
    subst hrs
    refine ⟨?_, ?_, ?_⟩
    · exact nodup_sortByCountDesc _ _ (nodup_distinctFirst _)
    · intro r
      unfold value_counts
      rw [mem_sortByCountDesc, mem_distinctFirst]
      exact groupRights_mem pairs k r
    · have hpw := pairwise_sortByCountDesc
        (fun r => (groupRights pairs k).count r)
        (fun r => (groupRights pairs k).indexOf r)
        (distinctFirst (groupRights pairs k))
        (pairwise_indexOf_distinctFirst (groupRights pairs k))
      refine List.Pairwise.imp ?_ hpw
      intro a b h
      rw [← groupRights_count pairs k a, ← groupRights_count pairs k b]
      exact h

/-! ## Union-find deduplication grouping (utils.py lines 236-301)

The numpy pointer array `ptr` becomes a `List Int`: a nonnegative entry
is a parent position, a negative entry marks a root holding minus the
tree size.  `find_root` follows parent links while the entry is
nonnegative; the Python loop terminates on the states the algorithm
produces, and the embedding bounds the walk by the array length, which
the well-formedness invariant below proves sufficient. -/

def findRootFuel (ptr : List Int) : Nat → Nat → Nat
  | 0, i => i
  | fuel + 1, i =>
    if 0 ≤ ptr.getD i (-1) then findRootFuel ptr fuel (ptr.getD i (-1)).toNat
    else i

/-- `find_root(index, ptr)` (utils.py lines 236-240). -/
def find_root (index : Nat) (ptr : List Int) : Nat :=
  findRootFuel ptr ptr.length index

/-- One iteration of the union loop of `deduple_grouping` (utils.py
lines 273-291) on tree positions `left_index`, `right_index`: find both
roots; if distinct, the root with the smaller (more negative) counter
absorbs the other, a strict comparison `ptr[right_root] < ptr[left_root]`
deciding whether the right root is the absorber. -/
def union_step (ptr : List Int) (left_index right_index : Nat) : List Int :=
  let left_root := find_root left_index ptr
  let right_root := find_root right_index ptr
  if left_root = right_root then ptr
  else
    let bigger_root := if ptr.getD right_root 0 < ptr.getD left_root 0
      then right_root else left_root
    let smaller_root := if ptr.getD right_root 0 < ptr.getD left_root 0
      then left_root else right_root
    let ptr1 := ptr.set bigger_root (ptr.getD bigger_root 0 + ptr.getD smaller_root 0)
    ptr1.set smaller_root (Int.ofNat bigger_root)

def runUnion (ptr : List Int) (ips : List (Nat × Nat)) : List Int :=
  ips.foldl (fun a p => union_step a p.1 p.2) ptr

/-- `matched_records[root_not].append(local_not)` on a defaultdict,
modelled as an association list in key insertion order. -/
def addToGroup (g : List (Nat × List Nat)) (r v : Nat) : List (Nat × List Nat) :=
  match g with
  | [] => [(r, [v])]
  | (k, vs) :: rest =>
    if k = r then (k, vs ++ [v]) :: rest else (k, vs) :: addToGroup rest r v

/-- `deduple_grouping` (utils.py lines 243-301): `unique_nots` is the
sorted unique identifier list (numpy `unique`), `ptr` starts as all -1,
pairs are unioned in input order, and the final pass groups every
position whose resolved root differs from itself under that root. -/
def deduple_grouping (pairs : List (Nat × Nat)) : List (Nat × List Nat) :=
  let unique_nots := uniqueSorted (pairs.map Prod.fst ++ pairs.map Prod.snd)
  let ptr0 : List Int := List.replicate unique_nots.length (-1)
  let ptrF := runUnion ptr0 (pairs.map (fun p =>
    (unique_nots.indexOf p.1, unique_nots.indexOf p.2)))
  (List.range unique_nots.length).foldl (fun g index =>
    let local_not := unique_nots.getD index 0
    let root_not := unique_nots.getD (find_root index ptrF) 0
    if root_not ≠ local_not then addToGroup g root_not local_not else g) []


/-! ### Well-formedness of the pointer forest -/

/-- The parent of position `i`: the array entry when it is nonnegative. -/
def parentOf (ptr : List Int) (i : Nat) : Option Nat :=
  if 0 ≤ ptr.getD i (-1) then Option.some (ptr.getD i (-1)).toNat else Option.none

/-- `Rooted ptr i r d`: from `i` the parent chain reaches the root `r`
in exactly `d` steps. -/
inductive Rooted (ptr : List Int) : Nat → Nat → Nat → Prop where
  | root (i : Nat) (h : parentOf ptr i = Option.none) : Rooted ptr i i 0
  | step (i j r d : Nat) (h : parentOf ptr i = Option.some j)
      (hj : Rooted ptr j r d) : Rooted ptr i r (d + 1)

/-- Well-formed pointer array: parents stay in range and every position
reaches a root. -/
def WFptr (ptr : List Int) : Prop :=
  (∀ i j, parentOf ptr i = Option.some j → j < ptr.length) ∧
  (∀ i, i < ptr.length → ∃ r d, Rooted ptr i r d)

lemma rooted_parent_none {ptr : List Int} {i r d : Nat}
    (h : Rooted ptr i r d) : parentOf ptr r = Option.none := by
  induction h with
  | root i h => exact h
  | step i j r d h hj ih => exact ih

lemma rooted_zero_eq {ptr : List Int} {i r : Nat}
    (h : Rooted ptr i r 0) : i = r := by
  cases h with
  | root => rfl

lemma rooted_det {ptr : List Int} {i r d : Nat} (h : Rooted ptr i r d) :
    ∀ {r2 d2 : Nat}, Rooted ptr i r2 d2 → r = r2 ∧ d = d2 := by
  induction h with
  | root i h =>
    intro r2 d2 h2
    cases h2 with
    | root => exact ⟨rfl, rfl⟩
    | step i2 j2 r2 d2 hpar => rw [h] at hpar; exact Option.noConfusion hpar
  | step i j r d h hj ih =>
    intro r2 d2 h2
    cases h2 with
    | root i2 hpar => rw [h] at hpar; exact Option.noConfusion hpar
    | step i2 j2 r2 d3 hpar hj2 =>
      rw [h] at hpar
      have hjj : j = j2 := Option.some.inj hpar
      subst hjj
      rcases ih hj2 with ⟨hr, hd⟩
      exact ⟨hr, by omega⟩

/-- Walk up to `k` parent steps, stopping at roots. -/
def chainN (ptr : List Int) : Nat → Nat → Nat
  | 0, i => i
  | k + 1, i =>
    match parentOf ptr i with
    | Option.some j => chainN ptr k j
    | Option.none => i

lemma chainN_succ_some {ptr : List Int} {i j : Nat}
    (hp : parentOf ptr i = Option.some j) (k : Nat) :
    chainN ptr (k + 1) i = chainN ptr k j := by
  conv_lhs => unfold chainN
  rw [hp]

lemma chainN_root {ptr : List Int} {i : Nat} (h : parentOf ptr i = Option.none) :
    ∀ k, chainN ptr k i = i := by
  intro k
  cases k with
  | zero => rfl
  | succ k2 =>
    unfold chainN
    rw [h]

lemma chainN_add (ptr : List Int) :
    ∀ (a c i : Nat), chainN ptr (a + c) i = chainN ptr c (chainN ptr a i) := by
  intro a
  induction a with
  | zero =>
    intro c i
    rw [Nat.zero_add]
    rfl
  | succ a2 ih =>
    intro c i
    have h1 : a2 + 1 + c = (a2 + c) + 1 := by omega
    rw [h1]
    cases hp : parentOf ptr i with
    | some j => rw [chainN_succ_some hp, chainN_succ_some hp, ih c j]
    | none => rw [chainN_root hp, chainN_root hp, chainN_root hp]

lemma rooted_chainN {ptr : List Int} {i r d : Nat} (h : Rooted ptr i r d) :
    ∀ k, k ≤ d → Rooted ptr (chainN ptr k i) r (d - k) := by
  induction h with
  | root i h =>
    intro k hk
    have hk0 : k = 0 := by omega
    subst hk0
    exact Rooted.root i h
  | step i j r d hp hj ih =>
    intro k hk
    cases k with
    | zero => exact Rooted.step i j r d hp hj
    | succ k2 =>
      rw [chainN_succ_some hp]
      have h3 : d + 1 - (k2 + 1) = d - k2 := by omega
      rw [h3]
      exact ih k2 (by omega)

lemma rooted_chainN_final {ptr : List Int} {i r d : Nat}
    (h : Rooted ptr i r d) : chainN ptr d i = r :=
  rooted_zero_eq (by simpa using rooted_chainN h d (le_refl d))

lemma chainN_in_range {ptr : List Int}
    (hp : ∀ i j, parentOf ptr i = Option.some j → j < ptr.length) :
    ∀ (k i : Nat), i < ptr.length → chainN ptr k i < ptr.length := by
  intro k
  induction k with
  | zero => intro i hi; exact hi
  | succ k2 ih =>
    intro i hi
    cases hpar : parentOf ptr i with
    | some j =>
      rw [chainN_succ_some hpar]
      exact ih j (hp i j hpar)
    | none =>
      rw [chainN_root hpar]
      exact hi

lemma rooted_depth_lt {ptr : List Int} (hwf : WFptr ptr) {i r d : Nat}
    (hi : i < ptr.length) (h : Rooted ptr i r d) : d < ptr.length := by
  have hinj : Function.Injective (fun k : Fin (d + 1) =>
      (⟨chainN ptr k.1 i, chainN_in_range hwf.1 k.1 i hi⟩ : Fin ptr.length)) := by
    intro a b hab
    have hab2 : chainN ptr a.1 i = chainN ptr b.1 i := congrArg Fin.val hab
    have ha := rooted_chainN h a.1 (by omega)
    have hb := rooted_chainN h b.1 (by omega)
    rw [hab2] at ha
    rcases rooted_det ha hb with ⟨_, hd⟩
    have ha1 := a.2
    have hb1 := b.2
    apply Fin.ext
    omega
  have := Fintype.card_le_of_injective _ hinj
  simp only [Fintype.card_fin] at this
  omega

lemma findRootFuel_of_rooted {ptr : List Int} {i r d : Nat}
    (h : Rooted ptr i r d) : ∀ fuel, d < fuel → findRootFuel ptr fuel i = r := by
  induction h with
  | root i h =>
    intro fuel hf
    cases fuel with
    | zero => omega
    | succ f =>
      unfold findRootFuel
      rw [if_neg ?_]
      unfold parentOf at h
      intro hge
      rw [if_pos hge] at h
      exact Option.noConfusion h
  | step i j r d hp hj ih =>
    intro fuel hf
    cases fuel with
    | zero => omega
    | succ f =>
      unfold findRootFuel
      unfold parentOf at hp
      by_cases hge : 0 ≤ ptr.getD i (-1)
      · rw [if_pos hge]
        rw [if_pos hge] at hp
        have hjv : (ptr.getD i (-1)).toNat = j := Option.some.inj hp
        rw [hjv]
        exact ih f (by omega)
      · rw [if_neg hge] at hp
        exact Option.noConfusion hp

lemma find_root_eq {ptr : List Int} (hwf : WFptr ptr) {i r d : Nat}
    (hi : i < ptr.length) (h : Rooted ptr i r d) : find_root i ptr = r :=
  findRootFuel_of_rooted h ptr.length (rooted_depth_lt hwf hi h)

lemma find_root_spec {ptr : List Int} (hwf : WFptr ptr) {i : Nat}
    (hi : i < ptr.length) :
    ∃ d, Rooted ptr i (find_root i ptr) d ∧
      parentOf ptr (find_root i ptr) = Option.none ∧
      find_root i ptr < ptr.length := by
  rcases hwf.2 i hi with ⟨r, d, hr⟩
  rcases find_root_eq hwf hi hr with hfr
  refine ⟨d, by rw [hfr]; exact hr, by rw [hfr]; exact rooted_parent_none hr, ?_⟩
  rw [hfr, ← rooted_chainN_final hr]
  exact chainN_in_range hwf.1 d i hi

/-! ### Effect of one union step on roots -/

lemma getD_set_self (l : List Int) (i : Nat) (v d : Int) (h : i < l.length) :
    (l.set i v).getD i d = v := by
  rw [List.getD_eq_getElem?_getD]
  rw [List.getElem?_set_self']
  simp [List.getElem?_eq_getElem h]

lemma getD_set_ne (l : List Int) (i j : Nat) (v d : Int) (h : i ≠ j) :
    (l.set i v).getD j d = l.getD j d := by
  rw [List.getD_eq_getElem?_getD, List.getElem?_set_ne h, ← List.getD_eq_getElem?_getD]

lemma getD_default_irrel (l : List Int) (i : Nat) (h : i < l.length) (d1 d2 : Int) :
    l.getD i d1 = l.getD i d2 := by
  rw [List.getD_eq_getElem?_getD, List.getD_eq_getElem?_getD]
  rw [List.getElem?_eq_getElem h]
  rfl

/-- The absorbing root of a union step: the right root exactly when its
size counter is strictly smaller (more negative). -/
def bigger_root (ptr : List Int) (left_index right_index : Nat) : Nat :=
  if ptr.getD (find_root right_index ptr) 0 < ptr.getD (find_root left_index ptr) 0
  then find_root right_index ptr else find_root left_index ptr

/-- The absorbed root of a union step. -/
def smaller_root (ptr : List Int) (left_index right_index : Nat) : Nat :=
  if ptr.getD (find_root right_index ptr) 0 < ptr.getD (find_root left_index ptr) 0
  then find_root left_index ptr else find_root right_index ptr

lemma union_step_of_eq {ptr : List Int} {li ri : Nat}
    (h : find_root li ptr = find_root ri ptr) : union_step ptr li ri = ptr := by
  unfold union_step
  rw [if_pos h]

lemma union_step_of_ne {ptr : List Int} {li ri : Nat}
    (h : find_root li ptr ≠ find_root ri ptr) :
    union_step ptr li ri =
      (ptr.set (bigger_root ptr li ri)
          (ptr.getD (bigger_root ptr li ri) 0 + ptr.getD (smaller_root ptr li ri) 0)).set
        (smaller_root ptr li ri) (Int.ofNat (bigger_root ptr li ri)) := by
  unfold union_step bigger_root smaller_root
  rw [if_neg h]

lemma union_step_length (ptr : List Int) (li ri : Nat) :
    (union_step ptr li ri).length = ptr.length := by
  by_cases h : find_root li ptr = find_root ri ptr
  · rw [union_step_of_eq h]
  · rw [union_step_of_ne h]
    rw [List.length_set, List.length_set]

/-- Context facts for a union step with distinct roots. -/
lemma union_roots_facts {ptr : List Int} (hwf : WFptr ptr) {li ri : Nat}
    (hli : li < ptr.length) (hri : ri < ptr.length)
    (hne : find_root li ptr ≠ find_root ri ptr) :
    bigger_root ptr li ri ≠ smaller_root ptr li ri ∧
    bigger_root ptr li ri < ptr.length ∧
    smaller_root ptr li ri < ptr.length ∧
    parentOf ptr (bigger_root ptr li ri) = Option.none ∧
    parentOf ptr (smaller_root ptr li ri) = Option.none ∧
    (bigger_root ptr li ri = find_root li ptr ∨ bigger_root ptr li ri = find_root ri ptr) ∧
    (smaller_root ptr li ri = find_root li ptr ∨ smaller_root ptr li ri = find_root ri ptr) := by
  rcases find_root_spec hwf hli with ⟨dl, hrl, hpl, hlrn⟩
  rcases find_root_spec hwf hri with ⟨dr, hrr, hpr, hrrn⟩
  unfold bigger_root smaller_root
  by_cases hc : ptr.getD (find_root ri ptr) 0 < ptr.getD (find_root li ptr) 0
  · rw [if_pos hc, if_pos hc]
    exact ⟨fun h => hne h.symm, hrrn, hlrn, hpr, hpl, Or.inr rfl, Or.inl rfl⟩
  · rw [if_neg hc, if_neg hc]
    exact ⟨hne, hlrn, hrrn, hpl, hpr, Or.inl rfl, Or.inr rfl⟩

lemma root_entry_neg {ptr : List Int} {r : Nat} (hr : r < ptr.length)
    (hp : parentOf ptr r = Option.none) : ptr.getD r 0 < 0 := by
  unfold parentOf at hp
  by_cases hge : 0 ≤ ptr.getD r (-1)
  · rw [if_pos hge] at hp
    exact Option.noConfusion hp
  · rw [getD_default_irrel ptr r hr 0 (-1)]
    omega

/-- Parent structure after a union step with distinct roots. -/
lemma parentOf_union_step {ptr : List Int} (hwf : WFptr ptr) {li ri : Nat}
    (hli : li < ptr.length) (hri : ri < ptr.length)
    (hne : find_root li ptr ≠ find_root ri ptr) :
    parentOf (union_step ptr li ri) (smaller_root ptr li ri)
        = Option.some (bigger_root ptr li ri) ∧
    parentOf (union_step ptr li ri) (bigger_root ptr li ri) = Option.none ∧
    (∀ x, x ≠ smaller_root ptr li ri → x ≠ bigger_root ptr li ri →
      parentOf (union_step ptr li ri) x = parentOf ptr x) := by
  rcases union_roots_facts hwf hli hri hne with
    ⟨hbs, hbn, hsn, hpb, hps, _, _⟩
  set br := bigger_root ptr li ri with hbr
  set sr := smaller_root ptr li ri with hsr
  have hlen1 : (ptr.set br (ptr.getD br 0 + ptr.getD sr 0)).length = ptr.length :=
    List.length_set ptr br _
  refine ⟨?_, ?_, ?_⟩
  · rw [union_step_of_ne hne, ← hbr, ← hsr]
    unfold parentOf
    rw [getD_set_self _ sr _ _ (by omega)]
    rw [if_pos (by exact Int.ofNat_nonneg br)]
    simp
  · rw [union_step_of_ne hne, ← hbr, ← hsr]
    unfold parentOf
    rw [getD_set_ne _ sr br _ _ (fun h => hbs h.symm)]
    rw [getD_set_self _ br _ _ hbn]
    have h1 : ptr.getD br 0 < 0 := root_entry_neg hbn hpb
    have h2 : ptr.getD sr 0 < 0 := root_entry_neg hsn hps
    rw [if_neg (by omega)]
  · intro x hxs hxb
    rw [union_step_of_ne hne, ← hbr, ← hsr]
    unfold parentOf
    rw [getD_set_ne _ sr x _ _ (fun h => hxs h.symm)]
    rw [getD_set_ne _ br x _ _ (fun h => hxb h.symm)]

lemma rooted_transfer_far {ptr : List Int} (hwf : WFptr ptr) {li ri : Nat}
    (hli : li < ptr.length) (hri : ri < ptr.length)
    (hne : find_root li ptr ≠ find_root ri ptr) :
    ∀ {i r d : Nat}, Rooted ptr i r d → r ≠ smaller_root ptr li ri →
      Rooted (union_step ptr li ri) i r d := by
  rcases parentOf_union_step hwf hli hri hne with ⟨hps, hpb, hoth⟩
  intro i r d h
  induction h with
  | root i h =>
    intro hrs
    by_cases hib : i = bigger_root ptr li ri
    · subst hib
      exact Rooted.root _ hpb
    · rw [← hoth i hrs hib] at h
      exact Rooted.root i h
  | step i j r d hp hj ih =>
    intro hrs
    have his : i ≠ smaller_root ptr li ri := by
      intro h2
      subst h2
      rcases union_roots_facts hwf hli hri hne with ⟨_, _, _, _, hpsm, _, _⟩
      rw [hpsm] at hp
      exact Option.noConfusion hp
    have hib : i ≠ bigger_root ptr li ri := by
      intro h2
      subst h2
      rcases union_roots_facts hwf hli hri hne with ⟨_, _, _, hpbg, _, _, _⟩
      rw [hpbg] at hp
      exact Option.noConfusion hp
    exact Rooted.step i j r d (by rw [hoth i his hib]; exact hp) (ih hrs)

lemma rooted_transfer_small {ptr : List Int} (hwf : WFptr ptr) {li ri : Nat}
    (hli : li < ptr.length) (hri : ri < ptr.length)
    (hne : find_root li ptr ≠ find_root ri ptr) :
    ∀ {i r d : Nat}, Rooted ptr i r d → r = smaller_root ptr li ri →
      Rooted (union_step ptr li ri) i (bigger_root ptr li ri) (d + 1) := by
  rcases parentOf_union_step hwf hli hri hne with ⟨hps, hpb, hoth⟩
  intro i r d h
  induction h with
  | root i h =>
    intro hrs
    exact Rooted.step i _ _ 0 (by rw [hrs]; exact hps) (Rooted.root _ hpb)
  | step i j r d hp hj ih =>
    intro hrs
    have his : i ≠ smaller_root ptr li ri := by
      intro h2
      subst h2
      rcases union_roots_facts hwf hli hri hne with ⟨_, _, _, _, hpsm, _, _⟩
      rw [hpsm] at hp
      exact Option.noConfusion hp
    have hib : i ≠ bigger_root ptr li ri := by
      intro h2
      subst h2
      rcases union_roots_facts hwf hli hri hne with ⟨_, _, _, hpbg, _, _, _⟩
      rw [hpbg] at hp
      exact Option.noConfusion hp
    exact Rooted.step i j _ (d + 1) (by rw [hoth i his hib]; exact hp) (ih hrs)

/-- The union step keeps the forest well-formed, and its effect on the
resolved root of every position is: positions rooted at the absorbed
root move to the absorbing root, all other positions keep their root. -/
lemma union_step_wf_map {ptr : List Int} (hwf : WFptr ptr) {li ri : Nat}
    (hli : li < ptr.length) (hri : ri < ptr.length) :
    WFptr (union_step ptr li ri) ∧
    (∀ x, x < ptr.length →
      find_root x (union_step ptr li ri)
        = if find_root li ptr = find_root ri ptr then find_root x ptr
          else if find_root x ptr = smaller_root ptr li ri
            then bigger_root ptr li ri else find_root x ptr) := by
  by_cases hne : find_root li ptr = find_root ri ptr
  · rw [union_step_of_eq hne]
    refine ⟨hwf, fun x hx => ?_⟩
    rw [if_pos hne]
  · rcases parentOf_union_step hwf hli hri hne with ⟨hps, hpb, hoth⟩
    rcases union_roots_facts hwf hli hri hne with
      ⟨hbs, hbn, hsn, hpbg, hpsm, _, _⟩
    have hlen : (union_step ptr li ri).length = ptr.length :=
      union_step_length ptr li ri
    have hwf2 : WFptr (union_step ptr li ri) := by
      constructor
      · intro i j hp
        by_cases his : i = smaller_root ptr li ri
        · subst his
          rw [hps] at hp
          have : j = bigger_root ptr li ri := (Option.some.inj hp).symm
          subst this
          omega
        · by_cases hib : i = bigger_root ptr li ri
          · subst hib
            rw [hpb] at hp
            exact Option.noConfusion hp
          · rw [hoth i his hib] at hp
            have := hwf.1 i j hp
            omega
      · intro i hi
        rw [hlen] at hi
        rcases hwf.2 i hi with ⟨r, d, hr⟩
        by_cases hrs : r = smaller_root ptr li ri
        · subst hrs
          exact ⟨_, _, rooted_transfer_small hwf hli hri hne hr rfl⟩
        · exact ⟨r, d, rooted_transfer_far hwf hli hri hne hr hrs⟩
    refine ⟨hwf2, fun x hx => ?_⟩
    rw [if_neg hne]
    rcases hwf.2 x hx with ⟨r, d, hr⟩
    have hfr : find_root x ptr = r := find_root_eq hwf hx hr
    by_cases hrs : r = smaller_root ptr li ri
    · rw [if_pos (by rw [hfr]; exact hrs)]
      subst hrs
      exact find_root_eq hwf2 (by omega) (rooted_transfer_small hwf hli hri hne hr rfl)
    · rw [if_neg (by rw [hfr]; exact hrs), hfr]
      exact find_root_eq hwf2 (by omega) (rooted_transfer_far hwf hli hri hne hr hrs)

/-! ### The whole union pass -/

lemma runUnion_cons (ptr : List Int) (p : Nat × Nat) (ips : List (Nat × Nat)) :
    runUnion ptr (p :: ips) = runUnion (union_step ptr p.1 p.2) ips := rfl

lemma runUnion_append (ptr : List Int) (l1 l2 : List (Nat × Nat)) :
    runUnion ptr (l1 ++ l2) = runUnion (runUnion ptr l1) l2 :=
  List.foldl_append _ _ _ _

lemma runUnion_wf : ∀ (ips : List (Nat × Nat)) (ptr : List Int), WFptr ptr →
    (∀ p ∈ ips, p.1 < ptr.length ∧ p.2 < ptr.length) →
    WFptr (runUnion ptr ips) ∧ (runUnion ptr ips).length = ptr.length := by
  intro ips
  induction ips with
  | nil => intro ptr hwf _; exact ⟨hwf, rfl⟩
  | cons p rest ih =>
    intro ptr hwf hb
    rcases hb p (List.mem_cons_self p rest) with ⟨h1, h2⟩
    have hstep := (union_step_wf_map hwf h1 h2).1
    have hlen := union_step_length ptr p.1 p.2
    rw [runUnion_cons]
    rcases ih (union_step ptr p.1 p.2) hstep
      (fun q hq => by rw [hlen]; exact hb q (List.mem_cons_of_mem p hq)) with ⟨hwf2, hlen2⟩
    exact ⟨hwf2, by rw [hlen2, hlen]⟩

lemma runUnion_preserves_eq : ∀ (ips : List (Nat × Nat)) (ptr : List Int),
    WFptr ptr → (∀ p ∈ ips, p.1 < ptr.length ∧ p.2 < ptr.length) →
    ∀ a b, a < ptr.length → b < ptr.length →
      find_root a ptr = find_root b ptr →
      find_root a (runUnion ptr ips) = find_root b (runUnion ptr ips) := by
  intro ips
  induction ips with
  | nil => intro ptr _ _ a b _ _ h; exact h
  | cons p rest ih =>
    intro ptr hwf hb a b ha hbnd h
    rcases hb p (List.mem_cons_self p rest) with ⟨h1, h2⟩
    have hmap := (union_step_wf_map hwf h1 h2).2
    have hstep := (union_step_wf_map hwf h1 h2).1
    have hlen := union_step_length ptr p.1 p.2
    rw [runUnion_cons]
    refine ih (union_step ptr p.1 p.2) hstep
      (fun q hq => by rw [hlen]; exact hb q (List.mem_cons_of_mem p hq))
      a b (by omega) (by omega) ?_
    rw [hmap a ha, hmap b hbnd, h]

lemma union_step_joins {ptr : List Int} (hwf : WFptr ptr) {li ri : Nat}
    (hli : li < ptr.length) (hri : ri < ptr.length) :
    find_root li (union_step ptr li ri) = find_root ri (union_step ptr li ri) := by
  by_cases hne : find_root li ptr = find_root ri ptr
  · rw [union_step_of_eq hne, hne]
  · have hmap := (union_step_wf_map hwf hli hri).2
    rcases union_roots_facts hwf hli hri hne with
      ⟨hbs, _, _, _, _, hbor, hsor⟩
    rw [hmap li hli, hmap ri hri, if_neg hne, if_neg hne]
    rcases hbor with hb | hb <;> rcases hsor with hs | hs
    · exact absurd (hb.trans hs.symm) hbs
    · rw [if_pos hs.symm]
      rw [if_neg (by rw [← hb]; exact hbs)]
      rw [← hb]
    · rw [if_pos hs.symm]
      rw [if_neg (by rw [← hb]; exact hbs)]
      rw [← hb]
    · exact absurd (hb.trans hs.symm) hbs

lemma runUnion_pair_joined {ips : List (Nat × Nat)} {ptr : List Int}
    (hwf : WFptr ptr)
    (hb : ∀ p ∈ ips, p.1 < ptr.length ∧ p.2 < ptr.length)
    {a b : Nat} (hmem : (a, b) ∈ ips) :
    find_root a (runUnion ptr ips) = find_root b (runUnion ptr ips) := by
  rcases List.append_of_mem hmem with ⟨l1, l2, rfl⟩
  have hb1 : ∀ p ∈ l1, p.1 < ptr.length ∧ p.2 < ptr.length :=
    fun q hq => hb q (List.mem_append_left _ hq)
  rcases runUnion_wf l1 ptr hwf hb1 with ⟨hwfm, hlenm⟩
  have hab : (a, b) ∈ l1 ++ (a, b) :: l2 :=
    List.mem_append_right _ (List.mem_cons_self _ _)
  rcases hb (a, b) hab with ⟨han, hbn⟩
  have han2 : a < ptr.length := han
  have hbn2 : b < ptr.length := hbn
  have hstep := (@union_step_wf_map (runUnion ptr l1) hwfm a b
    (by omega) (by omega)).1
  have hjoin := @union_step_joins (runUnion ptr l1) hwfm a b (by omega) (by omega)
  have hlen2 : (union_step (runUnion ptr l1) a b).length = ptr.length := by
    rw [union_step_length]
    omega
  rw [runUnion_append]
  have hsplit : runUnion (runUnion ptr l1) ((a, b) :: l2)
      = runUnion (union_step (runUnion ptr l1) a b) l2 := rfl
  rw [hsplit]
  have hb2 : ∀ q ∈ l2, q.1 < (union_step (runUnion ptr l1) a b).length ∧
      q.2 < (union_step (runUnion ptr l1) a b).length := by
    intro q hq
    rw [hlen2]
    exact hb q (List.mem_append_right _ (List.mem_cons_of_mem _ hq))
  exact runUnion_preserves_eq l2 _ hstep hb2 a b (by omega) (by omega) hjoin

/-! ### C2: union by size with left-biased tie-break -/

lemma parentOf_replicate (n i : Nat) :
    parentOf (List.replicate n (-1)) i = Option.none := by
  unfold parentOf
  rw [if_neg ?_]
  by_cases h : i < n
  · rw [List.getD_eq_getElem?_getD, List.getElem?_eq_getElem (by simpa using h)]
    simp
  · rw [List.getD_eq_getElem?_getD, List.getElem?_eq_none (by simpa using h)]
    simp

lemma WFptr_replicate (n : Nat) : WFptr (List.replicate n (-1)) := by
  constructor
  · intro i j h
    rw [parentOf_replicate] at h
    exact Option.noConfusion h
  · intro i _
    exact ⟨i, 0, Rooted.root i (parentOf_replicate n i)⟩

/-- C2: in a union step on distinct roots, the root whose size counter
is strictly more negative absorbs the other (both positions afterwards
resolve to it); on a tie, or when the left counter is more negative,
the left root remains the root; and the concrete run on
[(1,2),(2,3),(4,5)] produces exactly the clusters 1 ↦ [2,3], 4 ↦ [5]. -/
theorem union_by_size_spec (ptr : List Int) (hwf : WFptr ptr) (li ri : Nat)
    (hli : li < ptr.length) (hri : ri < ptr.length)
    (hne : find_root li ptr ≠ find_root ri ptr) :
    ((ptr.getD (find_root ri ptr) 0 < ptr.getD (find_root li ptr) 0 →
        find_root li (union_step ptr li ri) = find_root ri ptr ∧
        find_root ri (union_step ptr li ri) = find_root ri ptr) ∧
      (ptr.getD (find_root li ptr) 0 ≤ ptr.getD (find_root ri ptr) 0 →
        find_root li (union_step ptr li ri) = find_root li ptr ∧
        find_root ri (union_step ptr li ri) = find_root li ptr)) ∧
    deduple_grouping [(1, 2), (2, 3), (4, 5)] = [(1, [2, 3]), (4, [5])] := by
  refine ⟨⟨?_, ?_⟩, by decide⟩
  · intro hc
    have hmap := (union_step_wf_map hwf hli hri).2
    have hb : bigger_root ptr li ri = find_root ri ptr := by
      unfold bigger_root
      rw [if_pos hc]
    have hs : smaller_root ptr li ri = find_root li ptr := by
      unfold smaller_root
      rw [if_pos hc]
    constructor
    · rw [hmap li hli, if_neg hne, if_pos hs.symm, hb]
    · rw [hmap ri hri, if_neg hne, if_neg (by rw [hs]; exact fun h => hne h.symm)]
  · intro hc
    have hc2 : ¬ ptr.getD (find_root ri ptr) 0 < ptr.getD (find_root li ptr) 0 :=
      not_lt.mpr hc
    have hmap := (union_step_wf_map hwf hli hri).2
    have hb : bigger_root ptr li ri = find_root li ptr := by
      unfold bigger_root
      rw [if_neg hc2]
    have hs : smaller_root ptr li ri = find_root ri ptr := by
      unfold smaller_root
      rw [if_neg hc2]
    constructor
    · rw [hmap li hli, if_neg hne, if_neg (by rw [hs]; exact hne)]
    · rw [hmap ri hri, if_neg hne, if_pos hs.symm, hb]

/-- Witness for C2 at two fresh singleton roots with equal counters:
the left root remains the root. -/
theorem union_by_size_spec_witness :
    (0 < (List.replicate 2 (-1 : Int)).length ∧
      1 < (List.replicate 2 (-1 : Int)).length ∧
      find_root 0 (List.replicate 2 (-1 : Int))
        ≠ find_root 1 (List.replicate 2 (-1 : Int))) ∧
    ((((List.replicate 2 (-1 : Int)).getD
          (find_root 1 (List.replicate 2 (-1 : Int))) 0
        < (List.replicate 2 (-1 : Int)).getD
          (find_root 0 (List.replicate 2 (-1 : Int))) 0 →
        find_root 0 (union_step (List.replicate 2 (-1 : Int)) 0 1)
          = find_root 1 (List.replicate 2 (-1 : Int)) ∧
        find_root 1 (union_step (List.replicate 2 (-1 : Int)) 0 1)
          = find_root 1 (List.replicate 2 (-1 : Int))) ∧
      ((List.replicate 2 (-1 : Int)).getD
          (find_root 0 (List.replicate 2 (-1 : Int))) 0
        ≤ (List.replicate 2 (-1 : Int)).getD
          (find_root 1 (List.replicate 2 (-1 : Int))) 0 →
        find_root 0 (union_step (List.replicate 2 (-1 : Int)) 0 1)
          = find_root 0 (List.replicate 2 (-1 : Int)) ∧
        find_root 1 (union_step (List.replicate 2 (-1 : Int)) 0 1)
          = find_root 0 (List.replicate 2 (-1 : Int)))) ∧
    deduple_grouping [(1, 2), (2, 3), (4, 5)] = [(1, [2, 3]), (4, [5])]) :=
  ⟨⟨by decide, by decide, by decide⟩,
    union_by_size_spec (List.replicate 2 (-1)) (WFptr_replicate 2) 0 1
      (by decide) (by decide) (by decide)⟩

/-! ### Connectivity and the final grouping (C1) -/

/-- Chain connectivity through the confirmed-pair list. -/
inductive Conn (pairs : List (Nat × Nat)) : Nat → Nat → Prop where
  | of_mem {a b : Nat} : (a, b) ∈ pairs → Conn pairs a b
  | symm {a b : Nat} : Conn pairs a b → Conn pairs b a
  | trans {a b c : Nat} : Conn pairs a b → Conn pairs b c → Conn pairs a c

/-- The sorted unique identifier universe of `deduple_grouping`. -/
def dedupIds (pairs : List (Nat × Nat)) : List Nat :=
  uniqueSorted (pairs.map Prod.fst ++ pairs.map Prod.snd)

/-- The final pointer forest of `deduple_grouping`. -/
def dedupPtr (pairs : List (Nat × Nat)) : List Int :=
  runUnion (List.replicate (dedupIds pairs).length (-1))
    (pairs.map (fun p => ((dedupIds pairs).indexOf p.1, (dedupIds pairs).indexOf p.2)))

lemma deduple_grouping_eq (pairs : List (Nat × Nat)) :
    deduple_grouping pairs
      = (List.range (dedupIds pairs).length).foldl (fun g index =>
          let local_not := (dedupIds pairs).getD index 0
          let root_not := (dedupIds pairs).getD
            (find_root index (dedupPtr pairs)) 0
          if root_not ≠ local_not then addToGroup g root_not local_not else g) [] :=
  rfl

lemma mem_dedupIds {pairs : List (Nat × Nat)} {x : Nat} :
    x ∈ dedupIds pairs ↔ x ∈ pairs.map Prod.fst ++ pairs.map Prod.snd :=
  (uniqueSorted_spec _).1 x

lemma nodup_dedupIds (pairs : List (Nat × Nat)) : (dedupIds pairs).Nodup :=
  (uniqueSorted_spec _).2

lemma conn_mem_ids {pairs : List (Nat × Nat)} {a b : Nat}
    (h : Conn pairs a b) : a ∈ dedupIds pairs ∧ b ∈ dedupIds pairs := by
  induction h with
  | of_mem hm =>
    constructor
    · exact mem_dedupIds.mpr (List.mem_append_left _
        (List.mem_map.mpr ⟨_, hm, rfl⟩))
    · exact mem_dedupIds.mpr (List.mem_append_right _
        (List.mem_map.mpr ⟨_, hm, rfl⟩))
  | symm h ih => exact ⟨ih.2, ih.1⟩
  | trans h1 h2 ih1 ih2 => exact ⟨ih1.1, ih2.2⟩

lemma dedupPtr_wf (pairs : List (Nat × Nat)) :
    WFptr (dedupPtr pairs) ∧ (dedupPtr pairs).length = (dedupIds pairs).length := by
  have hb : ∀ p ∈ pairs.map (fun p =>
      ((dedupIds pairs).indexOf p.1, (dedupIds pairs).indexOf p.2)),
      p.1 < (List.replicate (dedupIds pairs).length (-1 : Int)).length ∧
      p.2 < (List.replicate (dedupIds pairs).length (-1 : Int)).length := by
    intro q hq
    rcases List.mem_map.mp hq with ⟨p, hp, hpe⟩
    subst hpe
    rw [List.length_replicate]
    constructor
    · exact List.indexOf_lt_length.mpr (mem_dedupIds.mpr
        (List.mem_append_left _ (List.mem_map.mpr ⟨p, hp, rfl⟩)))
    · exact List.indexOf_lt_length.mpr (mem_dedupIds.mpr
        (List.mem_append_right _ (List.mem_map.mpr ⟨p, hp, rfl⟩)))
  have h := runUnion_wf _ _ (WFptr_replicate (dedupIds pairs).length) hb
  rcases h with ⟨h1, h2⟩
  rw [List.length_replicate] at h2
  exact ⟨h1, h2⟩

/-- Positions of connected identifiers resolve to the same root in the
final forest. -/
lemma conn_same_root {pairs : List (Nat × Nat)} {a b : Nat}
    (h : Conn pairs a b) :
    find_root ((dedupIds pairs).indexOf a) (dedupPtr pairs)
      = find_root ((dedupIds pairs).indexOf b) (dedupPtr pairs) := by
  induction h with
  | of_mem hm =>
    have hb : ∀ p ∈ pairs.map (fun p =>
        ((dedupIds pairs).indexOf p.1, (dedupIds pairs).indexOf p.2)),
        p.1 < (List.replicate (dedupIds pairs).length (-1 : Int)).length ∧
        p.2 < (List.replicate (dedupIds pairs).length (-1 : Int)).length := by
      intro q hq
      rcases List.mem_map.mp hq with ⟨p, hp, hpe⟩
      subst hpe
      rw [List.length_replicate]
      constructor
      · exact List.indexOf_lt_length.mpr (mem_dedupIds.mpr
          (List.mem_append_left _ (List.mem_map.mpr ⟨p, hp, rfl⟩)))
      · exact List.indexOf_lt_length.mpr (mem_dedupIds.mpr
          (List.mem_append_right _ (List.mem_map.mpr ⟨p, hp, rfl⟩)))
    exact runUnion_pair_joined (WFptr_replicate _) hb
      (List.mem_map.mpr ⟨_, hm, rfl⟩)
  | symm h ih => exact ih.symm
  | trans h1 h2 ih1 ih2 => exact ih1.trans ih2

/-! ### The grouping accumulator -/

def groupKeys (g : List (Nat × List Nat)) : List Nat := g.map Prod.fst

def groupMems (g : List (Nat × List Nat)) : List Nat := (g.map Prod.snd).flatten

lemma groupKeys_addToGroup (g : List (Nat × List Nat)) (r v : Nat) :
    groupKeys (addToGroup g r v)
      = if r ∈ groupKeys g then groupKeys g else groupKeys g ++ [r] := by
  induction g with
  | nil => simp [addToGroup, groupKeys]
  | cons e rest ih =>
    rcases e with ⟨k, vs⟩
    unfold addToGroup
    by_cases hk : k = r
    · rw [if_pos hk]
      rw [if_pos (by rw [hk]; exact List.mem_cons_self r _)]
      unfold groupKeys
      simp [hk]
    · rw [if_neg hk]
      have hkeys : groupKeys ((k, vs) :: addToGroup rest r v)
          = k :: groupKeys (addToGroup rest r v) := rfl
      have hkeys2 : groupKeys ((k, vs) :: rest) = k :: groupKeys rest := rfl
      rw [hkeys, hkeys2, ih]
      by_cases hmem : r ∈ groupKeys rest
      · rw [if_pos hmem, if_pos (List.mem_cons_of_mem k hmem)]
      · rw [if_neg hmem, if_neg ?_]
        · rfl
        · intro hmem2
          rcases List.mem_cons.mp hmem2 with h2 | h2
          · exact hk h2.symm
          · exact hmem h2

lemma count_singleton_eq (v y : Nat) : List.count y [v] = if v = y then 1 else 0 := by
  rw [show ([v] : List Nat) = v :: [] from rfl, List.count_cons, List.count_nil]
  by_cases h : v = y
  · rw [if_pos (by rw [beq_iff_eq]; exact h), if_pos h]
  · rw [if_neg (by rw [beq_iff_eq]; exact h), if_neg h]

lemma groupMems_count_addToGroup (g : List (Nat × List Nat)) (r v y : Nat) :
    (groupMems (addToGroup g r v)).count y
      = (groupMems g).count y + if v = y then 1 else 0 := by
  induction g with
  | nil =>
    rw [show groupMems (addToGroup [] r v) = [v] from rfl]
    rw [show groupMems ([] : List (Nat × List Nat)) = [] from rfl]
    rw [count_singleton_eq]
    rw [List.count_nil]
    omega
  | cons e rest ih =>
    rcases e with ⟨k, vs⟩
    unfold addToGroup
    by_cases hk : k = r
    · rw [if_pos hk]
      have h1 : groupMems ((k, vs ++ [v]) :: rest)
          = (vs ++ [v]) ++ groupMems rest := rfl
      have h2 : groupMems ((k, vs) :: rest) = vs ++ groupMems rest := rfl
      rw [h1, h2]
      rw [List.count_append, List.count_append, List.count_append]
      rw [count_singleton_eq]
      omega
    · rw [if_neg hk]
      have h1 : groupMems ((k, vs) :: addToGroup rest r v)
          = vs ++ groupMems (addToGroup rest r v) := rfl
      have h2 : groupMems ((k, vs) :: rest) = vs ++ groupMems rest := rfl
      rw [h1, h2, List.count_append, List.count_append, ih]
      omega

lemma addToGroup_entry_pred (P : Nat → Nat → Prop) :
    ∀ (g : List (Nat × List Nat)) (r v : Nat),
      (∀ rr l2 y, (rr, l2) ∈ g → y ∈ l2 → P rr y) → P r v →
      ∀ rr l2 y, (rr, l2) ∈ addToGroup g r v → y ∈ l2 → P rr y := by
  intro g
  induction g with
  | nil =>
    intro r v hg hrv rr l2 y hmem hy
    unfold addToGroup at hmem
    have h := List.mem_singleton.mp hmem
    have hr : rr = r := congrArg Prod.fst h
    have hl : l2 = [v] := congrArg Prod.snd h
    rw [hl] at hy
    rw [hr, List.mem_singleton.mp hy]
    exact hrv
  | cons e rest ih =>
    rcases e with ⟨k, vs⟩
    intro r v hg hrv rr l2 y hmem hy
    unfold addToGroup at hmem
    by_cases hk : k = r
    · rw [if_pos hk] at hmem
      rcases List.mem_cons.mp hmem with h | h
      · have hr : rr = k := congrArg Prod.fst h
        have hl : l2 = vs ++ [v] := congrArg Prod.snd h
        rw [hl] at hy
        rcases List.mem_append.mp hy with h2 | h2
        · rw [hr]
          exact hg k vs y (List.mem_cons_self _ _) h2
        · rw [hr, hk, List.mem_singleton.mp h2]
          exact hrv
      · exact hg rr l2 y (List.mem_cons_of_mem _ h) hy
    · rw [if_neg hk] at hmem
      rcases List.mem_cons.mp hmem with h | h
      · have hr : rr = k := congrArg Prod.fst h
        have hl : l2 = vs := congrArg Prod.snd h
        rw [hl] at hy
        rw [hr]
        exact hg k vs y (List.mem_cons_self _ _) hy
      · exact ih r v
          (fun rr2 l3 y2 hm hy2 => hg rr2 l3 y2 (List.mem_cons_of_mem _ hm) hy2)
          hrv rr l2 y h hy

lemma mem_groupMems_of_entry {g : List (Nat × List Nat)} {rr : Nat}
    {l2 : List Nat} {y : Nat} (hmem : (rr, l2) ∈ g) (hy : y ∈ l2) :
    y ∈ groupMems g := by
  unfold groupMems
  rw [List.mem_flatten]
  exact ⟨l2, List.mem_map.mpr ⟨(rr, l2), hmem, rfl⟩, hy⟩

lemma mem_groupKeys_of_entry {g : List (Nat × List Nat)} {rr : Nat}
    {l2 : List Nat} (hmem : (rr, l2) ∈ g) : rr ∈ groupKeys g :=
  List.mem_map.mpr ⟨(rr, l2), hmem, rfl⟩

lemma mem_groupKeys_entry {g : List (Nat × List Nat)} {x : Nat}
    (h : x ∈ groupKeys g) : ∃ l2, (x, l2) ∈ g := by
  rcases List.mem_map.mp h with ⟨e, he, hex⟩
  exact ⟨e.2, by rcases e with ⟨k, vs⟩; cases hex; exact he⟩

/-! ### The final grouping pass as a fold -/

/-- One iteration of the grouping pass: when `cond i` holds, append
value `vf i` under key `kf i`. -/
def buildStep (kf vf : Nat → Nat) (cond : Nat → Prop) [DecidablePred cond]
    (g : List (Nat × List Nat)) (i : Nat) : List (Nat × List Nat) :=
  if cond i then addToGroup g (kf i) (vf i) else g

lemma buildFold_keys_nodup (kf vf : Nat → Nat) (cond : Nat → Prop)
    [DecidablePred cond] :
    ∀ (l : List Nat) (g : List (Nat × List Nat)), (groupKeys g).Nodup →
      (groupKeys (l.foldl (buildStep kf vf cond) g)).Nodup := by
  intro l
  induction l with
  | nil => intro g hg; exact hg
  | cons i rest ih =>
    intro g hg
    rw [List.foldl_cons]
    refine ih _ ?_
    unfold buildStep
    by_cases hc : cond i
    · rw [if_pos hc, groupKeys_addToGroup]
      by_cases hm : kf i ∈ groupKeys g
      · rw [if_pos hm]; exact hg
      · rw [if_neg hm]
        simp [List.nodup_append, hg, hm]
    · rw [if_neg hc]; exact hg

lemma buildFold_keys_mem (kf vf : Nat → Nat) (cond : Nat → Prop)
    [DecidablePred cond] :
    ∀ (l : List Nat) (g : List (Nat × List Nat)) (x : Nat),
      x ∈ groupKeys (l.foldl (buildStep kf vf cond) g)
        ↔ x ∈ groupKeys g ∨ ∃ i ∈ l, cond i ∧ kf i = x := by
  intro l
  induction l with
  | nil => intro g x; simp
  | cons i rest ih =>
    intro g x
    rw [List.foldl_cons, ih]
    unfold buildStep
    by_cases hc : cond i
    · rw [if_pos hc, groupKeys_addToGroup]
      by_cases hm : kf i ∈ groupKeys g
      · rw [if_pos hm]
        constructor
        · rintro (h | h)
          · exact Or.inl h
          · rcases h with ⟨j, hj, hcond, hkj⟩
            exact Or.inr ⟨j, List.mem_cons_of_mem i hj, hcond, hkj⟩
        · rintro (h | ⟨j, hj, hcond, hkj⟩)
          · exact Or.inl h
          · rcases List.mem_cons.mp hj with hji | hji
            · subst hji
              rw [← hkj]
              exact Or.inl hm
            · exact Or.inr ⟨j, hji, hcond, hkj⟩
      · rw [if_neg hm]
        constructor
        · rintro (h | h)
          · rcases List.mem_append.mp h with h2 | h2
            · exact Or.inl h2
            · rw [List.mem_singleton.mp h2]
              exact Or.inr ⟨i, List.mem_cons_self i rest, hc, rfl⟩
          · rcases h with ⟨j, hj, hcond, hkj⟩
            exact Or.inr ⟨j, List.mem_cons_of_mem i hj, hcond, hkj⟩
        · rintro (h | ⟨j, hj, hcond, hkj⟩)
          · exact Or.inl (List.mem_append_left _ h)
          · rcases List.mem_cons.mp hj with hji | hji
            · subst hji
              exact Or.inl (List.mem_append_right _ (by rw [hkj]; exact List.mem_singleton_self x))
            · exact Or.inr ⟨j, hji, hcond, hkj⟩
    · rw [if_neg hc]
      constructor
      · rintro (h | ⟨j, hj, hcond, hkj⟩)
        · exact Or.inl h
        · exact Or.inr ⟨j, List.mem_cons_of_mem i hj, hcond, hkj⟩
      · rintro (h | ⟨j, hj, hcond, hkj⟩)
        · exact Or.inl h
        · rcases List.mem_cons.mp hj with hji | hji
          · subst hji
            exact absurd hcond hc
          · exact Or.inr ⟨j, hji, hcond, hkj⟩

lemma buildFold_mems_count (kf vf : Nat → Nat) (cond : Nat → Prop)
    [DecidablePred cond] :
    ∀ (l : List Nat) (g : List (Nat × List Nat)) (y : Nat),
      (groupMems (l.foldl (buildStep kf vf cond) g)).count y
        = (groupMems g).count y
          + l.countP (fun i => decide (cond i ∧ vf i = y)) := by
  intro l
  induction l with
  | nil => intro g y; simp
  | cons i rest ih =>
    intro g y
    rw [List.foldl_cons, ih]
    rw [List.countP_cons]
    unfold buildStep
    by_cases hc : cond i
    · rw [if_pos hc, groupMems_count_addToGroup]
      by_cases hv : vf i = y
      · rw [if_pos hv, if_pos (by simp [hc, hv])]
        omega
      · rw [if_neg hv, if_neg (by simp [hc, hv])]
        omega
    · rw [if_neg hc, if_neg (by simp [hc])]
      omega

lemma buildFold_entry_pred (kf vf : Nat → Nat) (cond : Nat → Prop)
    [DecidablePred cond] (P : Nat → Nat → Prop) :
    ∀ (l : List Nat) (g : List (Nat × List Nat)),
      (∀ rr l2 y, (rr, l2) ∈ g → y ∈ l2 → P rr y) →
      (∀ i ∈ l, cond i → P (kf i) (vf i)) →
      ∀ rr l2 y, (rr, l2) ∈ l.foldl (buildStep kf vf cond) g → y ∈ l2 → P rr y := by
  intro l
  induction l with
  | nil => intro g hg _; exact hg
  | cons i rest ih =>
    intro g hg hl
    rw [List.foldl_cons]
    refine ih _ ?_ (fun j hj hcj => hl j (List.mem_cons_of_mem i hj) hcj)
    unfold buildStep
    by_cases hc : cond i
    · rw [if_pos hc]
      exact addToGroup_entry_pred P g (kf i) (vf i) hg
        (hl i (List.mem_cons_self i rest) hc)
    · rw [if_neg hc]
      exact hg

/-! ### Generic list access and counting facts -/

lemma getD_nat_eq_getElem (l : List Nat) (i : Nat) (h : i < l.length) (d : Nat) :
    l.getD i d = l.get ⟨i, h⟩ := by
  rw [List.getD_eq_getElem?_getD, List.getElem?_eq_getElem h]
  rfl

lemma nodup_getD_inj (l : List Nat) (hnd : l.Nodup) {i j : Nat}
    (hi : i < l.length) (hj : j < l.length)
    (h : l.getD i 0 = l.getD j 0) : i = j := by
  rw [getD_nat_eq_getElem l i hi 0, getD_nat_eq_getElem l j hj 0] at h
  exact (List.Nodup.getElem_inj_iff hnd).mp h

lemma getD_mem (l : List Nat) {i : Nat} (hi : i < l.length) : l.getD i 0 ∈ l := by
  rw [getD_nat_eq_getElem l i hi 0]
  exact List.get_mem l i hi

lemma getD_indexOf (l : List Nat) {x : Nat} (hx : x ∈ l) :
    l.getD (l.indexOf x) 0 = x := by
  rw [getD_nat_eq_getElem l _ (List.indexOf_lt_length.mpr hx) 0]
  exact List.getElem_indexOf (List.indexOf_lt_length.mpr hx)

lemma indexOf_getD (l : List Nat) (hnd : l.Nodup) {i : Nat} (hi : i < l.length) :
    l.indexOf (l.getD i 0) = i := by
  rw [getD_nat_eq_getElem l i hi 0]
  exact List.indexOf_getElem hnd i hi

lemma count_nodup (l : List Nat) (hnd : l.Nodup) (x : Nat) :
    l.count x = if x ∈ l then 1 else 0 := by
  by_cases hm : x ∈ l
  · rw [if_pos hm]
    have h1 := List.count_pos_iff.mpr hm
    have h2 := List.nodup_iff_count_le_one.mp hnd x
    omega
  · rw [if_neg hm]
    exact List.count_eq_zero.mpr hm

lemma countP_eq_of_unique (p : Nat → Prop) [DecidablePred p] :
    ∀ (l : List Nat), l.Nodup → ∀ i0 : Nat, (∀ i ∈ l, p i → i = i0) →
      l.countP (fun i => decide (p i)) = if i0 ∈ l ∧ p i0 then 1 else 0 := by
  intro l
  induction l with
  | nil =>
    intro _ i0 _
    rw [List.countP_nil, if_neg (by rintro ⟨h, _⟩; exact absurd h (List.not_mem_nil i0))]
  | cons a rest ih =>
    intro hnd i0 hchar
    rcases List.nodup_cons.mp hnd with ⟨ha, hrest⟩
    rw [List.countP_cons]
    by_cases hpa : p a
    · have ha0 : a = i0 := hchar a (List.mem_cons_self a rest) hpa
      have hzero : rest.countP (fun i => decide (p i)) = 0 := by
        apply List.countP_eq_zero.mpr
        intro i hi
        simp only [decide_eq_true_eq]
        intro hpi
        have := hchar i (List.mem_cons_of_mem a hi) hpi
        rw [this, ← ha0] at hi
        exact ha hi
      rw [hzero, if_pos (by simpa using hpa),
        if_pos ⟨by rw [← ha0]; exact List.mem_cons_self a rest, by rw [← ha0]; exact hpa⟩]
    · rw [if_neg (by simpa using hpa)]
      rw [ih hrest i0 (fun i hi hpi => hchar i (List.mem_cons_of_mem a hi) hpi)]
      by_cases hi0 : i0 ∈ rest ∧ p i0
      · rw [if_pos hi0, if_pos ⟨List.mem_cons_of_mem a hi0.1, hi0.2⟩]
      · rw [if_neg hi0, if_neg ?_]
        rintro ⟨hm, hp⟩
        rcases List.mem_cons.mp hm with h2 | h2
        · rw [← h2] at hpa
          exact hpa hp
        · exact hi0 ⟨h2, hp⟩

lemma entry_of_mem_groupMems {g : List (Nat × List Nat)} {y : Nat}
    (h : y ∈ groupMems g) : ∃ rr l2, (rr, l2) ∈ g ∧ y ∈ l2 := by
  unfold groupMems at h
  rw [List.mem_flatten] at h
  rcases h with ⟨l2, hl2, hy⟩
  rcases List.mem_map.mp hl2 with ⟨e, he, hee⟩
  exact ⟨e.1, l2, by rw [← hee] at hy ⊢; exact he, hy⟩

/-! ### Characterizing the output of deduple_grouping -/

/-- The id value of the resolved root of position `i` (`root_not`). -/
def rootNotAt (pairs : List (Nat × Nat)) (i : Nat) : Nat :=
  (dedupIds pairs).getD (find_root i (dedupPtr pairs)) 0

/-- The id value at position `i` (`local_not`). -/
def localNotAt (pairs : List (Nat × Nat)) (i : Nat) : Nat :=
  (dedupIds pairs).getD i 0

lemma deduple_grouping_as_fold (pairs : List (Nat × Nat)) :
    deduple_grouping pairs
      = (List.range (dedupIds pairs).length).foldl
          (buildStep (rootNotAt pairs) (localNotAt pairs)
            (fun i => rootNotAt pairs i ≠ localNotAt pairs i)) [] := rfl

lemma dedup_find_root_lt (pairs : List (Nat × Nat)) {i : Nat}
    (hi : i < (dedupIds pairs).length) :
    find_root i (dedupPtr pairs) < (dedupIds pairs).length := by
  rcases dedupPtr_wf pairs with ⟨hwf, hlen⟩
  rcases @find_root_spec (dedupPtr pairs) hwf i
    (show i < (dedupPtr pairs).length by omega) with ⟨d, hr, hpn, hlt⟩
  omega

lemma dedup_find_root_idem (pairs : List (Nat × Nat)) {i : Nat}
    (hi : i < (dedupIds pairs).length) :
    find_root (find_root i (dedupPtr pairs)) (dedupPtr pairs)
      = find_root i (dedupPtr pairs) := by
  rcases dedupPtr_wf pairs with ⟨hwf, hlen⟩
  rcases find_root_spec hwf (show i < (dedupPtr pairs).length by omega)
    with ⟨d, hr, hpn, hlt⟩
  exact find_root_eq hwf hlt (Rooted.root _ hpn)

lemma dedup_cond_iff (pairs : List (Nat × Nat)) {i : Nat}
    (hi : i < (dedupIds pairs).length) :
    (rootNotAt pairs i ≠ localNotAt pairs i) ↔ find_root i (dedupPtr pairs) ≠ i := by
  unfold rootNotAt localNotAt
  constructor
  · intro h h2
    rw [h2] at h
    exact h rfl
  · intro h h2
    exact h (nodup_getD_inj _ (nodup_dedupIds pairs)
      (dedup_find_root_lt pairs hi) hi h2)

lemma dedup_partner (pairs : List (Nat × Nat))
    (hdist : ∀ p ∈ pairs, p.1 ≠ p.2) {x : Nat} (hx : x ∈ dedupIds pairs) :
    ∃ j, j < (dedupIds pairs).length ∧ j ≠ (dedupIds pairs).indexOf x ∧
      find_root j (dedupPtr pairs)
        = find_root ((dedupIds pairs).indexOf x) (dedupPtr pairs) := by
  have hx2 := mem_dedupIds.mp hx
  have hconn : ∃ y, y ≠ x ∧ y ∈ dedupIds pairs ∧ Conn pairs x y := by
    rcases List.mem_append.mp hx2 with h | h
    · rcases List.mem_map.mp h with ⟨p, hp, hpx⟩
      refine ⟨p.2, ?_, ?_, ?_⟩
      · rw [← hpx]
        exact fun h2 => hdist p hp h2.symm
      · exact mem_dedupIds.mpr (List.mem_append_right _ (List.mem_map.mpr ⟨p, hp, rfl⟩))
      · refine Conn.of_mem ?_
        rw [← hpx]
        exact (show (p.1, p.2) ∈ pairs by simpa using hp)
    · rcases List.mem_map.mp h with ⟨p, hp, hpx⟩
      refine ⟨p.1, ?_, ?_, ?_⟩
      · rw [← hpx]
        exact fun h2 => hdist p hp h2
      · exact mem_dedupIds.mpr (List.mem_append_left _ (List.mem_map.mpr ⟨p, hp, rfl⟩))
      · refine Conn.symm (Conn.of_mem ?_)
        rw [← hpx]
        exact (show (p.1, p.2) ∈ pairs by simpa using hp)
  rcases hconn with ⟨y, hyx, hy, hcy⟩
  refine ⟨(dedupIds pairs).indexOf y, List.indexOf_lt_length.mpr hy, ?_, ?_⟩
  · intro h2
    apply hyx
    have := getD_indexOf (dedupIds pairs) hy
    rw [h2, getD_indexOf (dedupIds pairs) hx] at this
    exact this.symm
  · exact (conn_same_root hcy).symm

lemma dedup_keys_mem_iff (pairs : List (Nat × Nat))
    (hdist : ∀ p ∈ pairs, p.1 ≠ p.2) {x : Nat} (hx : x ∈ dedupIds pairs) :
    (x ∈ groupKeys (deduple_grouping pairs)
      ↔ find_root ((dedupIds pairs).indexOf x) (dedupPtr pairs)
          = (dedupIds pairs).indexOf x) := by
  have hi0 : (dedupIds pairs).indexOf x < (dedupIds pairs).length :=
    List.indexOf_lt_length.mpr hx
  rw [deduple_grouping_as_fold, buildFold_keys_mem]
  constructor
  · rintro (h | ⟨i, hi, hcond, hki⟩)
    · exact absurd h (by simp [groupKeys])
    · have hin : i < (dedupIds pairs).length := List.mem_range.mp hi
      have hroot : find_root i (dedupPtr pairs) = (dedupIds pairs).indexOf x := by
        apply nodup_getD_inj _ (nodup_dedupIds pairs) (dedup_find_root_lt pairs hin) hi0
        rw [getD_indexOf (dedupIds pairs) hx]
        exact hki
      have hidem := dedup_find_root_idem pairs hin
      rw [hroot] at hidem
      rw [← hroot] at hidem
      rw [hroot] at hidem
      exact hidem
  · intro hroot
    rcases dedup_partner pairs hdist hx with ⟨j, hj, hjne, hjr⟩
    refine Or.inr ⟨j, List.mem_range.mpr hj, ?_, ?_⟩
    · rw [dedup_cond_iff pairs hj]
      intro h2
      rw [h2] at hjr
      exact hjne (hjr.trans hroot)
    · unfold rootNotAt
      rw [hjr, hroot, getD_indexOf (dedupIds pairs) hx]

lemma dedup_counts (pairs : List (Nat × Nat))
    (hdist : ∀ p ∈ pairs, p.1 ≠ p.2) {x : Nat} (hx : x ∈ dedupIds pairs) :
    ((groupKeys (deduple_grouping pairs)).count x
        = if find_root ((dedupIds pairs).indexOf x) (dedupPtr pairs)
            = (dedupIds pairs).indexOf x then 1 else 0) ∧
    ((groupMems (deduple_grouping pairs)).count x
        = if find_root ((dedupIds pairs).indexOf x) (dedupPtr pairs)
            = (dedupIds pairs).indexOf x then 0 else 1) := by
  have hi0 : (dedupIds pairs).indexOf x < (dedupIds pairs).length :=
    List.indexOf_lt_length.mpr hx
  have hkeysnd : (groupKeys (deduple_grouping pairs)).Nodup := by
    rw [deduple_grouping_as_fold]
    exact buildFold_keys_nodup _ _ _ _ [] (by simp [groupKeys])
  constructor
  · rw [count_nodup _ hkeysnd x]
    by_cases hroot : find_root ((dedupIds pairs).indexOf x) (dedupPtr pairs)
        = (dedupIds pairs).indexOf x
    · rw [if_pos hroot,
        if_pos ((dedup_keys_mem_iff pairs hdist hx).mpr hroot)]
    · rw [if_neg hroot, if_neg ?_]
      intro hmem
      exact hroot ((dedup_keys_mem_iff pairs hdist hx).mp hmem)
  · rw [deduple_grouping_as_fold, buildFold_mems_count]
    rw [show groupMems ([] : List (Nat × List Nat)) = [] from rfl, List.count_nil]
    rw [countP_eq_of_unique
      (fun i => (rootNotAt pairs i ≠ localNotAt pairs i) ∧ localNotAt pairs i = x)
      (List.range (dedupIds pairs).length) (List.nodup_range _)
      ((dedupIds pairs).indexOf x) ?_]
    · by_cases hroot : find_root ((dedupIds pairs).indexOf x) (dedupPtr pairs)
          = (dedupIds pairs).indexOf x
      · rw [if_pos hroot, if_neg ?_]
        rintro ⟨hm, hcond, _⟩
        rw [dedup_cond_iff pairs hi0] at hcond
        exact hcond hroot
      · have hcondpos : (dedupIds pairs).indexOf x
            ∈ List.range (dedupIds pairs).length ∧
            ((rootNotAt pairs ((dedupIds pairs).indexOf x)
                ≠ localNotAt pairs ((dedupIds pairs).indexOf x)) ∧
              localNotAt pairs ((dedupIds pairs).indexOf x) = x) := by
          refine ⟨List.mem_range.mpr hi0, ?_, ?_⟩
          · rw [dedup_cond_iff pairs hi0]
            exact hroot
          · unfold localNotAt
            exact getD_indexOf (dedupIds pairs) hx
        rw [if_neg hroot, if_pos hcondpos]
    · intro i hi hp
      have hin : i < (dedupIds pairs).length := List.mem_range.mp hi
      apply nodup_getD_inj _ (nodup_dedupIds pairs) hin hi0
      rw [getD_indexOf (dedupIds pairs) hx]
      exact hp.2

/-- The cluster (root key) under which identifier `x` appears in the
returned mapping: `x` itself when `x` is a root key, else the key of
the list containing `x`. -/
def clusterOf (g : List (Nat × List Nat)) (x : Nat) : Option Nat :=
  (g.find? (fun e => decide (x = e.1) || decide (x ∈ e.2))).map Prod.fst

lemma dedup_clusterOf_eq (pairs : List (Nat × Nat))
    (hdist : ∀ p ∈ pairs, p.1 ≠ p.2) {x : Nat} (hx : x ∈ dedupIds pairs) :
    clusterOf (deduple_grouping pairs) x
      = Option.some (rootNotAt pairs ((dedupIds pairs).indexOf x)) := by
  have hi0 : (dedupIds pairs).indexOf x < (dedupIds pairs).length :=
    List.indexOf_lt_length.mpr hx
  rcases dedup_counts pairs hdist hx with ⟨hck, hcm⟩
  by_cases hroot : find_root ((dedupIds pairs).indexOf x) (dedupPtr pairs)
      = (dedupIds pairs).indexOf x
  · have hkey : x ∈ groupKeys (deduple_grouping pairs) :=
      (dedup_keys_mem_iff pairs hdist hx).mpr hroot
    rcases mem_groupKeys_entry hkey with ⟨l2, hl2⟩
    have hsome : ((deduple_grouping pairs).find?
        (fun e => decide (x = e.1) || decide (x ∈ e.2))).isSome := by
      rw [List.find?_isSome]
      exact ⟨(x, l2), hl2, by simp⟩
    cases hfind : (deduple_grouping pairs).find?
        (fun e => decide (x = e.1) || decide (x ∈ e.2)) with
    | none => rw [hfind] at hsome; exact Bool.noConfusion hsome
    | some e =>
      have hpred := List.find?_some hfind
      have hor : x = e.1 ∨ x ∈ e.2 := by simpa using hpred
      have hmem := List.mem_of_find?_eq_some hfind
      have hx1 : x = e.1 := by
        rcases hor with h | h
        · exact h
        · exfalso
          have hxm : x ∈ groupMems (deduple_grouping pairs) :=
            mem_groupMems_of_entry (show (e.1, e.2) ∈ deduple_grouping pairs by
              simpa using hmem) h
          have := List.count_pos_iff.mpr hxm
          rw [hcm, if_pos hroot] at this
          omega
      unfold clusterOf
      rw [hfind]
      rw [show rootNotAt pairs ((dedupIds pairs).indexOf x) = x from by
        unfold rootNotAt
        rw [hroot]
        exact getD_indexOf (dedupIds pairs) hx]
      rw [hx1]
      rfl
  · have hxm : x ∈ groupMems (deduple_grouping pairs) := by
      have : (groupMems (deduple_grouping pairs)).count x = 1 := by
        rw [hcm, if_neg hroot]
      have h2 : 0 < (groupMems (deduple_grouping pairs)).count x := by omega
      exact List.count_pos_iff.mp h2
    rcases entry_of_mem_groupMems hxm with ⟨rr, l2, hmem, hyl⟩
    have hsome : ((deduple_grouping pairs).find?
        (fun e => decide (x = e.1) || decide (x ∈ e.2))).isSome := by
      rw [List.find?_isSome]
      exact ⟨(rr, l2), hmem, by simp [hyl]⟩
    cases hfind : (deduple_grouping pairs).find?
        (fun e => decide (x = e.1) || decide (x ∈ e.2)) with
    | none => rw [hfind] at hsome; exact Bool.noConfusion hsome
    | some e =>
      have hpred := List.find?_some hfind
      have hor : x = e.1 ∨ x ∈ e.2 := by simpa using hpred
      have hmem2 := List.mem_of_find?_eq_some hfind
      have hx2 : x ∈ e.2 := by
        rcases hor with h | h
        · exfalso
          have hxk : x ∈ groupKeys (deduple_grouping pairs) := by
            rw [h]
            exact mem_groupKeys_of_entry (show (e.1, e.2) ∈ deduple_grouping pairs by
              simpa using hmem2)
          exact hroot ((dedup_keys_mem_iff pairs hdist hx).mp hxk)
        · exact h
      have hP : ∀ rr2 l3 y, (rr2, l3) ∈ deduple_grouping pairs → y ∈ l3 →
          rr2 = rootNotAt pairs ((dedupIds pairs).indexOf y) := by
        rw [deduple_grouping_as_fold]
        apply buildFold_entry_pred
        · intro rr2 l3 y hm
          exact absurd hm (List.not_mem_nil _)
        · intro i hi _
          have hin : i < (dedupIds pairs).length := List.mem_range.mp hi
          unfold localNotAt
          rw [indexOf_getD (dedupIds pairs) (nodup_dedupIds pairs) hin]
      have he1 : e.1 = rootNotAt pairs ((dedupIds pairs).indexOf x) :=
        hP e.1 e.2 x (by simpa using hmem2) hx2
      unfold clusterOf
      rw [hfind, ← he1]
      rfl

/-- Counterexample to C1 as stated: a degenerate self-pair (1,1) leaves
identifier 1, which appears in a pair, out of the returned mapping
entirely: it is neither a root key nor a member of any list. -/
theorem deduple_grouping_self_pair_counterexample :
    deduple_grouping [(1, 1)] = [] ∧
    (1 : Nat) ∈ ([(1, 1)] : List (Nat × Nat)).map Prod.fst
      ++ ([(1, 1)] : List (Nat × Nat)).map Prod.snd ∧
    (groupKeys (deduple_grouping [(1, 1)])
      ++ groupMems (deduple_grouping [(1, 1)])).count 1 = 0 := by
  refine ⟨by decide, by decide, by decide⟩

/-- C1 (amended): provided every confirmed pair relates two distinct
identifiers, `deduple_grouping` puts chain-connected identifiers into
the same cluster; the clusters partition the identifiers appearing in
at least one pair (each occurs exactly once among the root keys and the
members, and every key or member is such an identifier); a root never
lists itself among its members; and re-running on the same pair list
yields the identical mapping with identical roots. -/
theorem deduple_grouping_spec (pairs : List (Nat × Nat))
    (hdist : ∀ p ∈ pairs, p.1 ≠ p.2) :
    (∀ a b, Conn pairs a b →
      clusterOf (deduple_grouping pairs) a = clusterOf (deduple_grouping pairs) b ∧
      (clusterOf (deduple_grouping pairs) a).isSome = true) ∧
    (∀ x, x ∈ pairs.map Prod.fst ++ pairs.map Prod.snd →
      (groupKeys (deduple_grouping pairs)
        ++ groupMems (deduple_grouping pairs)).count x = 1) ∧
    (∀ y, y ∈ groupKeys (deduple_grouping pairs)
        ++ groupMems (deduple_grouping pairs) →
      y ∈ pairs.map Prod.fst ++ pairs.map Prod.snd) ∧
    (∀ r l, (r, l) ∈ deduple_grouping pairs → r ∉ l) ∧
    deduple_grouping pairs = deduple_grouping pairs := by
  have hsub : ∀ y, y ∈ groupKeys (deduple_grouping pairs)
      ++ groupMems (deduple_grouping pairs) → y ∈ dedupIds pairs := by
    intro y hy
    rcases List.mem_append.mp hy with h | h
    · rw [deduple_grouping_as_fold] at h
      rcases (buildFold_keys_mem _ _ _ _ [] y).mp h with h2 | ⟨i, hi, _, hky⟩
      · exact absurd h2 (by simp [groupKeys])
      · rw [← hky]
        unfold rootNotAt
        exact getD_mem _ (dedup_find_root_lt pairs (List.mem_range.mp hi))
    · have hpos := List.count_pos_iff.mpr h
      rw [deduple_grouping_as_fold, buildFold_mems_count] at hpos
      rw [show groupMems ([] : List (Nat × List Nat)) = [] from rfl,
        List.count_nil] at hpos
      have hpos2 : 0 < (List.range (dedupIds pairs).length).countP
          (fun i => decide ((rootNotAt pairs i ≠ localNotAt pairs i)
            ∧ localNotAt pairs i = y)) := by omega
      rcases List.countP_pos_iff.mp hpos2 with ⟨i, hi, hp⟩
      have hp2 : localNotAt pairs i = y := by
        simp only [decide_eq_true_eq] at hp
        exact hp.2
      rw [← hp2]
      unfold localNotAt
      exact getD_mem _ (List.mem_range.mp hi)
  refine ⟨?_, ?_, ?_, ?_, rfl⟩
  · intro a b hconn
    rcases conn_mem_ids hconn with ⟨ha, hb⟩
    rw [dedup_clusterOf_eq pairs hdist ha, dedup_clusterOf_eq pairs hdist hb]
    refine ⟨?_, rfl⟩
    unfold rootNotAt
    rw [conn_same_root hconn]
  · intro x hx
    have hx2 : x ∈ dedupIds pairs := mem_dedupIds.mpr hx
    rcases dedup_counts pairs hdist hx2 with ⟨hck, hcm⟩
    rw [List.count_append, hck, hcm]
    by_cases hroot : find_root ((dedupIds pairs).indexOf x) (dedupPtr pairs)
        = (dedupIds pairs).indexOf x
    · rw [if_pos hroot, if_pos hroot]
    · rw [if_neg hroot, if_neg hroot]
  · intro y hy
    exact mem_dedupIds.mp (hsub y hy)
  · intro r l hmem hrl
    have hrk : r ∈ groupKeys (deduple_grouping pairs) :=
      mem_groupKeys_of_entry hmem
    have hr2 : r ∈ dedupIds pairs :=
      hsub r (List.mem_append_left _ hrk)
    rcases dedup_counts pairs hdist hr2 with ⟨hck, hcm⟩
    have hroot := (dedup_keys_mem_iff pairs hdist hr2).mp hrk
    have hrm : r ∈ groupMems (deduple_grouping pairs) :=
      mem_groupMems_of_entry hmem hrl
    have := List.count_pos_iff.mpr hrm
    rw [hcm, if_pos hroot] at this
    omega

/-- Witness for C1 (amended) at the concrete pair list [(1, 2)]. -/
theorem deduple_grouping_spec_witness :
    (∀ p ∈ ([(1, 2)] : List (Nat × Nat)), p.1 ≠ p.2) ∧
    ((∀ a b, Conn [(1, 2)] a b →
      clusterOf (deduple_grouping [(1, 2)]) a
        = clusterOf (deduple_grouping [(1, 2)]) b ∧
      (clusterOf (deduple_grouping [(1, 2)]) a).isSome = true) ∧
    (∀ x, x ∈ ([(1, 2)] : List (Nat × Nat)).map Prod.fst
        ++ ([(1, 2)] : List (Nat × Nat)).map Prod.snd →
      (groupKeys (deduple_grouping [(1, 2)])
        ++ groupMems (deduple_grouping [(1, 2)])).count x = 1) ∧
    (∀ y, y ∈ groupKeys (deduple_grouping [(1, 2)])
        ++ groupMems (deduple_grouping [(1, 2)]) →
      y ∈ ([(1, 2)] : List (Nat × Nat)).map Prod.fst
        ++ ([(1, 2)] : List (Nat × Nat)).map Prod.snd) ∧
    (∀ r l, (r, l) ∈ deduple_grouping [(1, 2)] → r ∉ l) ∧
    deduple_grouping [(1, 2)] = deduple_grouping [(1, 2)]) :=
  ⟨by decide, deduple_grouping_spec [(1, 2)] (by decide)⟩

end PersonMatcher
